import Mathlib

/-!
# ShopwareMediaFuse: path codec and virtual file-system resolver

A shallow embedding of `main.go`.  Go strings are modelled as lists of
characters, byte slices as lists of naturals below 256, and a Go run-time
panic as the error side of `Except`.  The backing store `srcPoint` and the
ImageMagick wand are parameters of the resolver; the calls made to them are
recorded in order.  What the program prints with `fmt.Println` is left out.
-/

namespace MediaFuse

/-- Go `string`, as the sequence of its characters. -/
abbrev GoString := List Char

/-- Run-time panics the Go code can raise. -/
inductive GoPanic where
  | indexOutOfRange
  | nilDereference
  deriving DecidableEq, Repr

/-! ## Library: `crypto/md5` and `fmt` -/

namespace MD5

/-- Per-round left-rotation amounts. -/
def shifts : List Nat :=
  [7, 12, 17, 22, 7, 12, 17, 22, 7, 12, 17, 22, 7, 12, 17, 22,
   5, 9, 14, 20, 5, 9, 14, 20, 5, 9, 14, 20, 5, 9, 14, 20,
   4, 11, 16, 23, 4, 11, 16, 23, 4, 11, 16, 23, 4, 11, 16, 23,
   6, 10, 15, 21, 6, 10, 15, 21, 6, 10, 15, 21, 6, 10, 15, 21]

/-- The table `floor (2^32 * |sin (i + 1)|)`. -/
def sines : List Nat :=
  [0xd76aa478, 0xe8c7b756, 0x242070db, 0xc1bdceee, 0xf57c0faf, 0x4787c62a, 0xa8304613, 0xfd469501,
   0x698098d8, 0x8b44f7af, 0xffff5bb1, 0x895cd7be, 0x6b901122, 0xfd987193, 0xa679438e, 0x49b40821,
   0xf61e2562, 0xc040b340, 0x265e5a51, 0xe9b6c7aa, 0xd62f105d, 0x02441453, 0xd8a1e681, 0xe7d3fbc8,
   0x21e1cde6, 0xc33707d6, 0xf4d50d87, 0x455a14ed, 0xa9e3e905, 0xfcefa3f8, 0x676f02d9, 0x8d2a4c8a,
   0xfffa3942, 0x8771f681, 0x6d9d6122, 0xfde5380c, 0xa4beea44, 0x4bdecfa9, 0xf6bb4b60, 0xbebfbc70,
   0x289b7ec6, 0xeaa127fa, 0xd4ef3085, 0x04881d05, 0xd9d4d039, 0xe6db99e5, 0x1fa27cf8, 0xc4ac5665,
   0xf4292244, 0x432aff97, 0xab9423a7, 0xfc93a039, 0x655b59c3, 0x8f0ccc92, 0xffeff47d, 0x85845dd1,
   0x6fa87e4f, 0xfe2ce6e0, 0xa3014314, 0x4e0811a1, 0xf7537e82, 0xbd3af235, 0x2ad7d2bb, 0xeb86d391]

/-- Rotate a 32-bit word left by `c` bits. -/
def rotl (x c : Nat) : Nat :=
  ((x <<< c) ||| (x >>> (32 - c))) % 2 ^ 32

/-- Bitwise complement of a 32-bit word. -/
def not32 (x : Nat) : Nat := x ^^^ 0xffffffff

/-- Little-endian bytes of a 32-bit word. -/
def wordBytes (w : Nat) : List Nat :=
  [w % 256, (w / 256) % 256, (w / 65536) % 256, (w / 16777216) % 256]

/-- The `j`-th little-endian 32-bit word of a 64-byte chunk. -/
def wordAt (chunk : List Nat) (j : Nat) : Nat :=
  chunk.getD (4 * j) 0 + 256 * chunk.getD (4 * j + 1) 0
    + 65536 * chunk.getD (4 * j + 2) 0 + 16777216 * chunk.getD (4 * j + 3) 0

/-- One of the 64 operations on the working state `(a, b, c, d)`. -/
def step (chunk : List Nat) (st : Nat × Nat × Nat × Nat) (i : Nat) : Nat × Nat × Nat × Nat :=
  let a := st.1
  let b := st.2.1
  let c := st.2.2.1
  let d := st.2.2.2
  let f :=
    if i < 16 then (b &&& c) ||| (not32 b &&& d)
    else if i < 32 then (d &&& b) ||| (not32 d &&& c)
    else if i < 48 then b ^^^ c ^^^ d
    else c ^^^ (b ||| not32 d)
  let g :=
    if i < 16 then i
    else if i < 32 then (5 * i + 1) % 16
    else if i < 48 then (3 * i + 5) % 16
    else (7 * i) % 16
  let x := (f + a + sines.getD i 0 + wordAt chunk g) % 2 ^ 32
  (d, (b + rotl x (shifts.getD i 0)) % 2 ^ 32, b, c)

/-- Digest one 64-byte chunk into the running state. -/
def block (st : Nat × Nat × Nat × Nat) (chunk : List Nat) : Nat × Nat × Nat × Nat :=
  let r := (List.range 64).foldl (step chunk) st
  ((st.1 + r.1) % 2 ^ 32, (st.2.1 + r.2.1) % 2 ^ 32,
   (st.2.2.1 + r.2.2.1) % 2 ^ 32, (st.2.2.2 + r.2.2.2) % 2 ^ 32)

/-- Message padding: a `0x80` byte, zeros up to 56 modulo 64, the bit length on 8 bytes. -/
def pad (msg : List Nat) : List Nat :=
  let bits := 8 * msg.length
  msg ++ [0x80] ++ List.replicate ((119 - msg.length % 64) % 64) 0
    ++ (List.range 8).map (fun j => (bits / 256 ^ j) % 256)

/-- The 16-byte digest `md5.Sum`. -/
def Sum (msg : List Nat) : List Nat :=
  let p := pad msg
  let r := (List.range (p.length / 64)).foldl
    (fun st j => block st ((p.drop (64 * j)).take 64))
    (0x67452301, 0xefcdab89, 0x98badcfe, 0x10325476)
  wordBytes r.1 ++ wordBytes r.2.1 ++ wordBytes r.2.2.1 ++ wordBytes r.2.2.2

end MD5

/-- UTF-8 encoding of one character. -/
def utf8Bytes (c : Char) : List Nat :=
  let v := c.toNat
  if v < 0x80 then [v]
  else if v < 0x800 then [0xC0 + v / 64, 0x80 + v % 64]
  else if v < 0x10000 then [0xE0 + v / 4096, 0x80 + (v / 64) % 64, 0x80 + v % 64]
  else [0xF0 + v / 262144, 0x80 + (v / 4096) % 64, 0x80 + (v / 64) % 64, 0x80 + v % 64]

/-- Conversion `[]byte(s)`. -/
def toBytes (s : GoString) : List Nat := s.flatMap utf8Bytes

/-- Two lowercase hex digits of one byte. -/
def hexByte (b : Nat) : GoString := [Nat.digitChar (b / 16), Nat.digitChar (b % 16)]

/-- The formatting `fmt.Sprintf("%x", bytes)` of a byte array. -/
def sprintfHexBytes (bs : List Nat) : GoString := bs.flatMap hexByte

/-- The formatting `fmt.Sprintf("%x", n)` of a single integer. -/
def sprintfHex (n : Nat) : GoString := Nat.toDigits 16 n

/-- The slice expression `s[i:j]`. -/
def slice (s : GoString) (i j : Nat) : GoString := (s.take j).drop i

/-! ## `ReplaceBadWords` and `Encode` -/

/-- The call `strings.Replace(s, old, new, -1)` for a non-empty `old`: every
non-overlapping occurrence, scanning from the left.  The first argument counts
the characters of a matched occurrence still to be skipped. -/
def stringsReplace (old new : GoString) : Nat → GoString → GoString
  | _, [] => []
  | skip + 1, _ :: cs => stringsReplace old new skip cs
  | 0, c :: cs =>
    if old.isPrefixOf (c :: cs) then new ++ stringsReplace old new (old.length - 1) cs
    else c :: stringsReplace old new 0 cs

/-- Source `ReplaceBadWords`. -/
def ReplaceBadWords (input : GoString) : GoString :=
  stringsReplace "/ad/".toList "/g0/".toList 0 input

/-- Source `Encode`: three two-character shards of the MD5 of `media/image/<name>`,
then the name, with the bad-word replacement applied to the whole. -/
def Encode (name : GoString) : GoString :=
  let md5String := sprintfHexBytes (MD5.Sum (toBytes ("media/image/".toList ++ name)))
  ReplaceBadWords
    (slice md5String 0 2 ++ "/".toList ++ slice md5String 2 4 ++ "/".toList
      ++ slice md5String 4 6 ++ "/".toList ++ name)

/-! ## Library: `regexp` (leftmost-first matching) and `strconv` -/

/-- Character class `\w`. -/
def isWord (c : Char) : Bool := c.isAlphanum || c == '_'

/-- Character class `\d`. -/
def isDigit (c : Char) : Bool := c.isDigit

/-- Character class `[\w-]`. -/
def isWordOrDash (c : Char) : Bool := isWord c || c == '-'

/-- The fragment of regular-expression syntax that `thumbnailRegex` uses. -/
inductive Regex where
  | empty : Regex
  | char : Char → Regex
  | cls : (Char → Bool) → Regex
  | seq : Regex → Regex → Regex
  | plus : (Char → Bool) → Regex
  | opt : Regex → Regex
  | group : Nat → Regex → Regex

/-- Submatches of one match: entry 0 is the whole match, entry `i` the text of
group `i`, the empty string for a group that did not take part. -/
abbrev Submatch := List GoString

/-- Greedy `[class]+`: the longest run is tried first, then shorter ones. -/
def plusRun {α : Type} (p : Char → Bool) : GoString → (GoString → Option α) → Option α
  | [], _ => none
  | c :: cs, k =>
    if p c then
      match plusRun p cs k with
      | some r => some r
      | none => k cs
    else none

/-- Backtracking search in priority order: `run re s caps k` matches `re` at the
start of `s` and hands the rest of the input and the captures to `k`; the first
success is the result. -/
def Regex.run {α : Type} : Regex → GoString → Submatch →
    (GoString → Submatch → Option α) → Option α
  | .empty, s, caps, k => k s caps
  | .char c, s, caps, k =>
    match s with
    | x :: xs => if x = c then k xs caps else none
    | [] => none
  | .cls p, s, caps, k =>
    match s with
    | x :: xs => if p x then k xs caps else none
    | [] => none
  | .seq a b, s, caps, k => a.run s caps (fun s1 caps1 => b.run s1 caps1 k)
  | .plus p, s, caps, k => plusRun p s (fun s1 => k s1 caps)
  | .opt a, s, caps, k =>
    match a.run s caps k with
    | some r => some r
    | none => k s caps
  | .group i a, s, caps, k =>
    a.run s caps (fun s1 caps1 => k s1 (caps1.set i (s.take (s.length - s1.length))))

/-- Number of capturing groups. -/
def Regex.numSubexp : Regex → Nat
  | .seq a b => a.numSubexp + b.numSubexp
  | .opt a => a.numSubexp
  | .group _ a => a.numSubexp + 1
  | _ => 0

/-- The match starting exactly at the head of `s`, if there is one. -/
def Regex.matchAt (re : Regex) (s : GoString) : Option Submatch :=
  re.run s (List.replicate (re.numSubexp + 1) [])
    (fun s1 caps => some (caps.set 0 (s.take (s.length - s1.length))))

/-- Entry `[0]` of `re.FindAllStringSubmatch(s, -1)`: the leftmost match, or
`none` when the result is `nil`. -/
def Regex.firstSubmatch (re : Regex) : GoString → Option Submatch
  | [] => re.matchAt []
  | c :: cs =>
    match re.matchAt (c :: cs) with
    | some m => some m
    | none => Regex.firstSubmatch re cs

/-- The method `re.MatchString(s)`: whether `s` contains any match. -/
def Regex.MatchString (re : Regex) (s : GoString) : Bool :=
  (re.firstSubmatch s).isSome

/-- Concatenation of a list of expressions. -/
def Regex.cat : List Regex → Regex
  | [] => .empty
  | [r] => r
  | r :: rs => .seq r (Regex.cat rs)

/-- The function `strconv.Atoi` on a 64-bit platform: the value and whether an
error is reported.  A syntax error yields 0, a range error the nearest bound. -/
def Atoi (s : GoString) : Int × Bool :=
  let neg := s.head? = some '-'
  let body := if s.head? = some '-' ∨ s.head? = some '+' then s.tail else s
  if body = [] ∨ ¬ body.all Char.isDigit then (0, true)
  else
    let n : Nat := body.foldl (fun n c => 10 * n + (c.toNat - 48)) 0
    if neg then
      if n > 2 ^ 63 then (-(2 ^ 63 : Int), true) else (-(n : Int), false)
    else
      if n ≥ 2 ^ 63 then ((2 ^ 63 - 1 : Int), true) else ((n : Int), false)

/-! ## The path codec -/

/-- Source `thumbnailRegex`:
`\w{2}\/\w{2}\/\w{2}\/([\w-]+)_(\d+)x(\d+)(@2x)?\.(\w+)`. -/
def thumbnailRegex : Regex :=
  Regex.cat
    [.cls isWord, .cls isWord, .char '/',
     .cls isWord, .cls isWord, .char '/',
     .cls isWord, .cls isWord, .char '/',
     .group 1 (.plus isWordOrDash), .char '_',
     .group 2 (.plus isDigit), .char 'x',
     .group 3 (.plus isDigit),
     .opt (.group 4 (Regex.cat [.char '@', .char '2', .char 'x'])),
     .char '.', .group 5 (.plus isWord)]

/-- Named results of `DecodeThumbnailName`. -/
structure Decoded where
  fileName : GoString
  height : Int
  width : Int
  retina : Bool
  deriving DecidableEq, Repr

/-- Source `DecodeThumbnailName`.  Indexing `regexResult[0]` panics when the
path has no match. -/
def DecodeThumbnailName (encodedPath : GoString) : Except GoPanic Decoded :=
  match thumbnailRegex.firstSubmatch encodedPath with
  | none => .error .indexOutOfRange
  | some m =>
    .ok { retina := decide (m.getD 4 [] = "@2x".toList)
          fileName := m.getD 1 [] ++ ".".toList ++ m.getD 5 []
          height := (Atoi (m.getD 2 [])).1
          width := (Atoi (m.getD 3 [])).1 }

/-- Source `isThumbnail`. -/
def isThumbnail (path : GoString) : Bool :=
  thumbnailRegex.MatchString path

/-- Source `GetGeneratedSubfolderNames`. -/
def GetGeneratedSubfolderNames : List GoString :=
  (List.range 16).foldl
    (fun subFolderNames i =>
      subFolderNames ++ (List.range 16).map (fun a => sprintfHex i ++ sprintfHex a))
    []

/-- Source `contains`. -/
def contains (s : List GoString) (e : GoString) : Bool :=
  match s with
  | [] => false
  | a :: rest => if a = e then true else contains rest e

/-- The call `strings.Split(s, "/")`; the first argument is the segment being
accumulated. -/
def splitSlashGo (cur : GoString) : GoString → List GoString
  | [] => [cur]
  | c :: cs => if c = '/' then cur :: splitSlashGo [] cs else splitSlashGo (cur ++ [c]) cs

/-- The call `strings.Split(s, "/")`. -/
def stringsSplit (s : GoString) : List GoString := splitSlashGo [] s

/-- The call `strings.Join(parts, "/")`. -/
def stringsJoin : List GoString → GoString
  | [] => []
  | [a] => a
  | a :: rest => a ++ '/' :: stringsJoin rest

/-! ## Library: `go-fuse` types and the collaborators -/

/-- Type `fuse.Status`. -/
abbrev Status := Int

namespace fuse

/-- Constant `fuse.OK`. -/
def OK : Status := 0

/-- Constant `fuse.EPERM`. -/
def EPERM : Status := 1

/-- Constant `fuse.ENOENT`. -/
def ENOENT : Status := 2

/-- Constant `fuse.S_IFDIR`. -/
def S_IFDIR : Nat := 0o40000

/-- Constant `fuse.O_ANYWRITE`, the union of `O_WRONLY`, `O_RDWR`, `O_APPEND`,
`O_CREATE` and `O_TRUNC` (Linux values). -/
def O_ANYWRITE : Nat := 0o1 ||| 0o2 ||| 0o2000 ||| 0o100 ||| 0o1000

/-- Struct `fuse.Attr`. -/
structure Attr where
  Ino : Nat := 0
  Size : Nat := 0
  Blocks : Nat := 0
  Atime : Nat := 0
  Mtime : Nat := 0
  Ctime : Nat := 0
  Atimensec : Nat := 0
  Mtimensec : Nat := 0
  Ctimensec : Nat := 0
  Mode : Nat := 0
  Nlink : Nat := 0
  Uid : Nat := 0
  Gid : Nat := 0
  Rdev : Nat := 0
  Blksize : Nat := 0
  Padding : Nat := 0
  deriving DecidableEq, Repr

/-- Struct `fuse.DirEntry`. -/
structure DirEntry where
  Mode : Nat := 0
  Name : GoString := []
  Ino : Nat := 0
  deriving DecidableEq, Repr

end fuse

/-- Method `Status.Ok`. -/
def Status.Ok (code : Status) : Bool := code == fuse.OK

/-- Constant `os.O_CREATE|os.O_RDWR` (Linux values). -/
def O_CREATE_RDWR : Nat := 0o100 ||| 0o2

/-- A `nodefs.File` handle handed out by the backing store. -/
abbrev File := Nat

/-- The backing store `srcPoint` over states `σ`.  Lookups read the state;
`Mkdir`, `Create`, `Write` and `Flush` return the next state.  A `none` file
or attribute is a nil value.  `Read f n off` stands for `f.Read(buf, off)` on a
buffer of `n` bytes followed by `rr.Bytes(buf)`: the bytes placed in the
buffer, or `none` for a nil read result. -/
structure BackingStore (σ : Type) where
  GetAttr : σ → GoString → Option fuse.Attr × Status
  OpenDir : σ → GoString → List fuse.DirEntry × Status
  Open : σ → GoString → Nat → Option File × Status
  Read : σ → File → Nat → Nat → Option (List Nat) × Status
  Mkdir : σ → GoString → Nat → σ × Status
  Create : σ → GoString → Nat → Nat → σ × Option File × Status
  Write : σ → File → List Nat → Nat → σ × Nat × Status
  Flush : σ → File → σ × Status

/-- Settings of a `MagickWand` when its blob is taken. -/
structure Wand where
  blob : List Nat
  format : GoString
  columns : Nat
  rows : Nat
  quality : Nat
  deriving DecidableEq, Repr

/-- Calls made to the collaborators, in the order they happen. -/
inductive Call where
  | GetAttr (name : GoString)
  | Open (name : GoString) (flags : Nat)
  | Read (file : File) (size off : Nat)
  | Mkdir (name : GoString) (mode : Nat)
  | Create (name : GoString) (flags mode : Nat)
  | Write (file : File) (data : List Nat) (off : Nat)
  | Flush (file : File)
  | ReadImageBlob (blob : List Nat)
  | SetImageFormat (format : GoString)
  | ScaleImage (columns rows : Nat)
  | SetCompressionQuality (quality : Nat)
  | GetImageBlob
  deriving DecidableEq, Repr

/-- Whether a call changes the backing store. -/
def Call.mutates : Call → Bool
  | .Mkdir _ _ => true
  | .Create _ _ _ => true
  | .Write _ _ _ => true
  | .Flush _ => true
  | _ => false

/-- Conversion `uint(x)` of an `int`. -/
def toUint (x : Int) : Nat := (x % 2 ^ 64).toNat

/-! ## The resolver -/

/-- The directory attribute `&fuse.Attr{Mode: fuse.S_IFDIR | 0755}`. -/
def dirAttr : fuse.Attr := { Mode := fuse.S_IFDIR ||| 0o755 }

/-- Tail of source `GetAttr`: the synthetic shard directories. -/
def shardDirAttr (name : GoString) : Except GoPanic (Option fuse.Attr × Status) :=
  let dirParts := stringsSplit name
  match dirParts[dirParts.length - 1]? with
  | none => if dirParts.length < 4 then .error .indexOutOfRange else .ok (none, fuse.ENOENT)
  | some last =>
    if dirParts.length < 4 && contains GetGeneratedSubfolderNames last then
      .ok (some dirAttr, fuse.OK)
    else .ok (none, fuse.ENOENT)

/-- Source `FuseMount.GetAttr`. -/
def GetAttr {σ : Type} (srcPoint : BackingStore σ) (st : σ) (name : GoString) :
    Except GoPanic (Option fuse.Attr × Status) :=
  if name = [] then .ok (some dirAttr, fuse.OK)
  else
    let src := srcPoint.GetAttr st name
    if src.2.Ok then .ok src
    else if isThumbnail name then
      match DecodeThumbnailName name with
      | .error e => .error e
      | .ok d =>
        let originalFileName := Encode d.fileName
        let original := srcPoint.GetAttr st originalFileName
        if original.2.Ok then .ok original
        else shardDirAttr name
    else shardDirAttr name

/-- Source `FuseMount.OpenDir`. -/
def OpenDir {σ : Type} (srcPoint : BackingStore σ) (st : σ) (name : GoString) :
    List fuse.DirEntry × Status :=
  let src := srcPoint.OpenDir st name
  let dirParts := stringsSplit name
  let generated : List fuse.DirEntry :=
    if dirParts.length < 3 then
      GetGeneratedSubfolderNames.map (fun generatedSubFolder =>
        { Name := generatedSubFolder, Mode := fuse.S_IFDIR })
    else []
  let dirEntries := if src.2.Ok then generated ++ src.1 else generated
  (dirEntries, fuse.OK)

/-- What an `Open` leaves behind: the handle and status it returns, the backing
store afterwards, and the collaborator calls it made. -/
structure Opened (σ : Type) where
  file : Option File
  code : Status
  store : σ
  calls : List Call

/-- The loop of source `Open` that creates the missing folders above the
thumbnail: one step for index `key` of `folderLevels`. -/
def mkdirStep {σ : Type} (srcPoint : BackingStore σ) (folderLevels : List GoString)
    (acc : σ × List Call) (key : Nat) : σ × List Call :=
  if key = folderLevels.length - 1 then acc
  else
    let folderString := stringsJoin (folderLevels.take (key + 1))
    let status := (srcPoint.GetAttr acc.1 folderString).2
    if !status.Ok then
      ((srcPoint.Mkdir acc.1 folderString 0o755).1,
        acc.2 ++ [Call.GetAttr folderString, Call.Mkdir folderString 0o755])
    else (acc.1, acc.2 ++ [Call.GetAttr folderString])

/-- The materialisation branch of source `Open`, entered once the original has
been opened with `originalStatus`. -/
def materialise {σ : Type} (srcPoint : BackingStore σ) (GetImageBlob : Wand → List Nat)
    (st : σ) (name : GoString) (d : Decoded) (originalFileName : GoString)
    (originalFile : Option File) (originalStatus : Status) (calls : List Call) :
    Except GoPanic (Opened σ) :=
  match (srcPoint.GetAttr st originalFileName).1 with
  | none => .error .nilDereference
  | some originalFileAttr =>
    match originalFile with
    | none => .error .nilDereference
    | some orig =>
      match (srcPoint.Read st orig originalFileAttr.Size 0).1 with
      | none => .error .nilDereference
      | some rawImage =>
        let columns := toUint d.width
        let rows := toUint d.height
        let calls := calls ++
          [Call.GetAttr originalFileName, Call.Read orig originalFileAttr.Size 0,
           Call.ReadImageBlob rawImage, Call.SetImageFormat "JPG".toList,
           Call.ScaleImage columns rows, Call.SetCompressionQuality 5]
        let folderLevels := stringsSplit name
        let dirs := (List.range folderLevels.length).foldl
          (mkdirStep srcPoint folderLevels) (st, calls)
        let created := srcPoint.Create dirs.1 name O_CREATE_RDWR 0o644
        let imageData := GetImageBlob
          { blob := rawImage, format := "JPG".toList, columns := columns, rows := rows,
            quality := 5 }
        match created.2.1 with
        | none => .error .nilDereference
        | some file =>
          let written := srcPoint.Write created.1 file imageData 0
          let flushed := srcPoint.Flush written.1 file
          .ok { file := some file
                code := originalStatus
                store := flushed.1
                calls := dirs.2 ++
                  [Call.Create name O_CREATE_RDWR 0o644, Call.GetImageBlob,
                   Call.Write file imageData 0, Call.Flush file] }

/-- Source `FuseMount.Open`. -/
def Open {σ : Type} (srcPoint : BackingStore σ) (GetImageBlob : Wand → List Nat)
    (st : σ) (name : GoString) (flags : Nat) : Except GoPanic (Opened σ) :=
  if flags &&& fuse.O_ANYWRITE ≠ 0 then
    .ok { file := none, code := fuse.EPERM, store := st, calls := [] }
  else
    let src := srcPoint.Open st name flags
    if src.2.Ok then
      .ok { file := src.1, code := src.2, store := st, calls := [Call.Open name flags] }
    else if isThumbnail name then
      match DecodeThumbnailName name with
      | .error e => .error e
      | .ok d =>
        let originalFileName := Encode d.fileName
        let original := srcPoint.Open st originalFileName flags
        if original.2.Ok then
          materialise srcPoint GetImageBlob st name d originalFileName original.1 original.2
            [Call.Open name flags, Call.Open originalFileName flags]
        else
          .ok { file := none, code := fuse.ENOENT, store := st
                calls := [Call.Open name flags, Call.Open originalFileName flags] }
    else
      .ok { file := none, code := fuse.ENOENT, store := st, calls := [Call.Open name flags] }

/-! ## Notions used in the statements -/

/-- The lowercase hexadecimal digits. -/
def hexDigits : List Char := "0123456789abcdef".toList

/-- The shard name with number `n`: the hex digit of `n / 16`, then that of `n % 16`. -/
def shardName (n : Nat) : GoString := [Nat.digitChar (n / 16), Nat.digitChar (n % 16)]

/-- The 256 synthetic directory entries. -/
def shardEntries : List fuse.DirEntry :=
  GetGeneratedSubfolderNames.map (fun n => { Name := n, Mode := fuse.S_IFDIR })

/-- The strings a regular expression denotes. -/
def Regex.Matches : Regex → GoString → Prop
  | .empty, s => s = []
  | .char c, s => s = [c]
  | .cls p, s => ∃ x, p x = true ∧ s = [x]
  | .seq a b, s => ∃ s1 s2, s = s1 ++ s2 ∧ a.Matches s1 ∧ b.Matches s2
  | .plus p, s => s ≠ [] ∧ ∀ x ∈ s, p x = true
  | .opt a, s => s = [] ∨ a.Matches s
  | .group _ a, s => a.Matches s

/-- The pieces of a thumbnail path
`<shard1>/<shard2>/<shard3>/<name>_<first>x<second>[@2x].<ext>`: `first` is the
number written before the `x`, `second` the number written after it. -/
structure ThumbnailParts where
  shard1 : GoString
  shard2 : GoString
  shard3 : GoString
  name : GoString
  first : GoString
  second : GoString
  doubled : Bool
  ext : GoString

/-- The marker `@2x` of the doubled variant. -/
def marker (doubled : Bool) : GoString := if doubled then "@2x".toList else []

/-- The path spelled by the pieces. -/
def ThumbnailParts.path (p : ThumbnailParts) : GoString :=
  p.shard1 ++ ('/' :: (p.shard2 ++ ('/' :: (p.shard3 ++ ('/' :: (p.name ++ ('_' ::
    (p.first ++ ('x' :: (p.second ++ (marker p.doubled ++ ('.' :: p.ext))))))))))))

/-- Well-formed pieces: three shards of two characters of the class `shardChar`,
a non-empty name over `[\w-]`, two non-empty digit strings, a non-empty
extension over `\w`. -/
def ThumbnailParts.WellFormed (shardChar : Char → Bool) (p : ThumbnailParts) : Prop :=
  (p.shard1.length = 2 ∧ ∀ x ∈ p.shard1, shardChar x = true) ∧
  (p.shard2.length = 2 ∧ ∀ x ∈ p.shard2, shardChar x = true) ∧
  (p.shard3.length = 2 ∧ ∀ x ∈ p.shard3, shardChar x = true) ∧
  (p.name ≠ [] ∧ ∀ x ∈ p.name, isWordOrDash x = true) ∧
  (p.first ≠ [] ∧ ∀ x ∈ p.first, isDigit x = true) ∧
  (p.second ≠ [] ∧ ∀ x ∈ p.second, isDigit x = true) ∧
  (p.ext ≠ [] ∧ ∀ x ∈ p.ext, isWord x = true)

/-- The whole of `path` has the thumbnail wire form, with shard labels over
`shardChar`. -/
def IsWireForm (shardChar : Char → Bool) (path : GoString) : Prop :=
  ∃ p : ThumbnailParts, p.WellFormed shardChar ∧ p.path = path

/-- Lowercase hexadecimal digit. -/
def isLowerHex (c : Char) : Bool := decide (c ∈ hexDigits)

/-- The original behind a thumbnail path resolves in the backing store. -/
def OriginalResolves {σ : Type} (srcPoint : BackingStore σ) (st : σ) (name : GoString) : Prop :=
  isThumbnail name = true ∧
    ∃ d, DecodeThumbnailName name = .ok d ∧ (srcPoint.GetAttr st (Encode d.fileName)).2.Ok = true

/-- The path has fewer than 4 segments and its last segment is a shard name. -/
def IsShardDir (name : GoString) : Prop :=
  (stringsSplit name).length < 4 ∧
    ∃ last, (stringsSplit name).getLast? = some last ∧ last ∈ GetGeneratedSubfolderNames

/-- An `Open` result that left the backing store alone: same state, and no call
that creates, writes, flushes or makes a directory. -/
def Opened.Untouched {σ : Type} (r : Opened σ) (st : σ) : Prop :=
  r.store = st ∧ ∀ c ∈ r.calls, c.mutates = false

/-- The decimal rendering of a natural number. -/
def decimal (n : Nat) : GoString := Nat.toDigits 10 n

/-- The accumulation step of `Atoi`. -/
def atoiStep (n : Nat) (c : Char) : Nat := 10 * n + (c.toNat - 48)

/-- What `ReplaceBadWords` may do to one character: keep it, or turn the `a`
and `d` of a bad word into `g` and `0`. -/
def Replaced (c c' : Char) : Prop := c' = c ∨ (c = 'a' ∧ c' = 'g') ∨ (c = 'd' ∧ c' = '0')

/-! ## A concrete backing store -/

/-- Contents of an in-memory backing store: the directories and the files with
their bytes.  A file handle is the position of the file in `files`. -/
structure Disk where
  dirs : List GoString
  files : List (GoString × List Nat)
  deriving DecidableEq, Repr

/-- How the in-memory store treats writes. -/
inductive Condition where
  | healthy
  | diskFull
  | readOnly
  deriving DecidableEq, Repr

/-- Constant `syscall.ENOSPC`. -/
def ENOSPC : Status := 28

/-- Constant `syscall.EROFS`. -/
def EROFS : Status := 30

/-- Position of a path among the files. -/
def Disk.find (d : Disk) (name : GoString) : Option Nat :=
  let i := d.files.findIdx (fun f => f.1 = name)
  if i < d.files.length then some i else none

/-- The in-memory backing store.  When the disk is full `Write` fails with
`ENOSPC`; when it is read-only `Mkdir`, `Create` and `Write` fail with `EROFS`. -/
def memStore (c : Condition) : BackingStore Disk where
  GetAttr d name :=
    match d.find name with
    | some i => (some { Size := (d.files.getD i ([], [])).2.length, Mode := 0o100644 }, fuse.OK)
    | none => if name ∈ d.dirs then (some dirAttr, fuse.OK) else (none, fuse.ENOENT)
  OpenDir d name :=
    if name = [] ∨ name ∈ d.dirs then
      ((d.dirs.filter (fun p => stringsJoin (stringsSplit p).dropLast = name ∧ p ≠ [])).map
          (fun p => { Name := (stringsSplit p).getLastD [], Mode := fuse.S_IFDIR })
        ++ (d.files.filter (fun f => stringsJoin (stringsSplit f.1).dropLast = name)).map
          (fun f => { Name := (stringsSplit f.1).getLastD [], Mode := 0o100000 }), fuse.OK)
    else ([], fuse.ENOENT)
  Open d name _ :=
    match d.find name with
    | some i => (some i, fuse.OK)
    | none => (none, fuse.ENOENT)
  Read d f n off :=
    match d.files[f]? with
    | some file => (some (((file.2.drop off) ++ List.replicate n 0).take n), fuse.OK)
    | none => (none, fuse.ENOENT)
  Mkdir d name _ :=
    if c = .readOnly then (d, EROFS) else ({ d with dirs := d.dirs ++ [name] }, fuse.OK)
  Create d name _ _ :=
    if c = .readOnly then (d, none, EROFS)
    else
      match d.find name with
      | some i => ({ d with files := d.files.set i (name, []) }, some i, fuse.OK)
      | none => ({ d with files := d.files ++ [(name, [])] }, some d.files.length, fuse.OK)
  Write d f data off :=
    if c = .readOnly then (d, 0, EROFS)
    else if c = .diskFull then (d, 0, ENOSPC)
    else
      match d.files[f]? with
      | some file =>
        let bytes := (file.2 ++ List.replicate off 0).take off ++ data
          ++ file.2.drop (off + data.length)
        ({ d with files := d.files.set f (file.1, bytes) }, data.length, fuse.OK)
      | none => (d, 0, fuse.ENOENT)
  Flush d _ := (d, fuse.OK)

/-- A disk holding the original `cat.jpg` at its canonical path. -/
def catDisk : Disk where
  dirs := ["88".toList, "88/c3".toList, "88/c3/04".toList]
  files := [("88/c3/04/cat.jpg".toList, [255, 216, 255, 224])]

/-- The thumbnail path made of the three shards of `Encode("cat.jpg")` and
`/cat_100x50.jpg`, that is `88/c3/04/cat_100x50.jpg`. -/
def catThumbnail : GoString := (Encode "cat.jpg".toList).take 8 ++ "/cat_100x50.jpg".toList

/-! # Theorems -/

/-! ## Auxiliary lemmas -/

/-- A path the regular expression accepts decodes without a panic. -/
theorem decode_ok_of_isThumbnail {path : GoString} (h : isThumbnail path = true) :
    ∃ d, DecodeThumbnailName path = .ok d := by
  unfold isThumbnail Regex.MatchString at h
  unfold DecodeThumbnailName
  cases hm : thumbnailRegex.firstSubmatch path with
  | none => rw [hm] at h; simp at h
  | some m => exact ⟨_, rfl⟩

/-- A path the regular expression rejects makes `regexResult[0]` panic. -/
theorem decode_panics_of_not_isThumbnail {path : GoString} (h : isThumbnail path = false) :
    DecodeThumbnailName path = .error .indexOutOfRange := by
  unfold isThumbnail Regex.MatchString at h
  unfold DecodeThumbnailName
  cases hm : thumbnailRegex.firstSubmatch path with
  | none => rfl
  | some m => rw [hm] at h; simp at h

theorem contains_eq_true_iff (s : List GoString) (e : GoString) :
    contains s e = true ↔ e ∈ s := by
  induction s with
  | nil => simp [contains]
  | cons a rest ih =>
    unfold contains
    by_cases h : a = e
    · simp [h]
    · have h2 : ¬ e = a := fun h3 => h h3.symm
      simp [h, h2, ih]

theorem splitSlashGo_ne_nil (cur s : GoString) : splitSlashGo cur s ≠ [] := by
  induction s generalizing cur with
  | nil => simp [splitSlashGo]
  | cons c cs ih =>
    unfold splitSlashGo
    split
    · simp
    · exact ih _

theorem shardDirAttr_eq (name : GoString) :
    (IsShardDir name → shardDirAttr name = .ok (some dirAttr, fuse.OK)) ∧
    (¬ IsShardDir name → shardDirAttr name = .ok (none, fuse.ENOENT)) := by
  have hne : stringsSplit name ≠ [] := splitSlashGo_ne_nil _ _
  obtain ⟨last, hlast⟩ : ∃ last, (stringsSplit name).getLast? = some last := by
    cases h : (stringsSplit name).getLast? with
    | none => exact absurd (List.getLast?_eq_none_iff.mp h) hne
    | some l => exact ⟨l, rfl⟩
  have hidx : (stringsSplit name)[(stringsSplit name).length - 1]? = some last := by
    rw [← List.getLast?_eq_getElem?]; exact hlast
  constructor
  · rintro ⟨hlen, l, hl, hmem⟩
    have : l = last := by rw [hlast] at hl; exact (Option.some.inj hl).symm
    subst this
    simp only [shardDirAttr, hidx]
    simp [hlen, (contains_eq_true_iff _ _).mpr hmem]
  · intro hnot
    simp only [shardDirAttr, hidx]
    have : ¬ ((stringsSplit name).length < 4 ∧ contains GetGeneratedSubfolderNames last = true) := by
      rintro ⟨h1, h2⟩
      exact hnot ⟨h1, last, hlast, (contains_eq_true_iff _ _).mp h2⟩
    simp only [Bool.and_eq_true, decide_eq_true_eq, this, if_false, Bool.false_eq_true]

theorem plusRun_isSome {α : Type} (p : Char → Bool) (s : GoString) (k : GoString → Option α) :
    (plusRun p s k).isSome = true ↔
      ∃ s1 s2, s = s1 ++ s2 ∧ (s1 ≠ [] ∧ ∀ x ∈ s1, p x = true) ∧ (k s2).isSome = true := by
  induction s with
  | nil =>
    simp only [plusRun, Option.isSome_none, Bool.false_eq_true, false_iff]
    rintro ⟨s1, s2, h, ⟨hne, _⟩, _⟩
    have := List.append_eq_nil.mp h.symm
    exact hne this.1
  | cons c cs ih =>
    unfold plusRun
    by_cases hp : p c = true
    · simp only [hp, if_true]
      constructor
      · intro h
        cases hr : plusRun p cs k with
        | some r =>
          have : (plusRun p cs k).isSome = true := by rw [hr]; rfl
          obtain ⟨s1, s2, hs, ⟨_, hall⟩, hk⟩ := ih.mp this
          refine ⟨c :: s1, s2, by rw [hs]; rfl, ⟨by simp, ?_⟩, hk⟩
          intro x hx
          rcases List.mem_cons.mp hx with rfl | hx
          · exact hp
          · exact hall x hx
        | none =>
          rw [hr] at h
          exact ⟨[c], cs, rfl, ⟨by simp, by simpa using hp⟩, h⟩
      · rintro ⟨s1, s2, hs, ⟨hne, hall⟩, hk⟩
        cases s1 with
        | nil => exact absurd rfl hne
        | cons x s1' =>
          have hx : x = c := by injection hs with h1 _; exact h1.symm
          have hcs : cs = s1' ++ s2 := by injection hs
          cases hr : plusRun p cs k with
          | some r => rfl
          | none =>
            simp only
            by_cases hs1 : s1' = []
            · subst hs1; simpa [hcs] using hk
            · have : (plusRun p cs k).isSome = true :=
                ih.mpr ⟨s1', s2, hcs, ⟨hs1, fun y hy => hall y (List.mem_cons_of_mem _ hy)⟩, hk⟩
              rw [hr] at this; simp at this
    · simp only [hp, if_false, Option.isSome_none, Bool.false_eq_true, false_iff]
      rintro ⟨s1, s2, hs, ⟨hne, hall⟩, _⟩
      cases s1 with
      | nil => exact hne rfl
      | cons x s1' =>
        have hx : x = c := by injection hs with h1 _; exact h1.symm
        exact hp (hx ▸ hall x (List.mem_cons_self _ _))

/-- Soundness and completeness of the backtracking search: with a continuation
whose success does not depend on the captures, `run` succeeds exactly when some
prefix of the input is denoted by the expression and the continuation accepts
what follows. -/
theorem Regex.run_isSome {α : Type} (re : Regex) :
    ∀ (s : GoString) (caps : Submatch) (k : GoString → Submatch → Option α),
      (∀ t c c', (k t c).isSome = (k t c').isSome) →
      ((re.run s caps k).isSome = true ↔
        ∃ s1 s2, s = s1 ++ s2 ∧ re.Matches s1 ∧ (k s2 caps).isSome = true) := by
  induction re with
  | empty =>
    intro s caps k _
    simp only [Regex.run, Regex.Matches]
    constructor
    · intro h; exact ⟨[], s, rfl, rfl, h⟩
    · rintro ⟨s1, s2, hs, rfl, hk⟩; simpa [hs] using hk
  | char c =>
    intro s caps k _
    cases s with
    | nil =>
      simp only [Regex.run, Regex.Matches, Option.isSome_none, Bool.false_eq_true, false_iff]
      rintro ⟨s1, s2, hs, rfl, _⟩
      simp at hs
    | cons x xs =>
      simp only [Regex.run, Regex.Matches]
      constructor
      · intro h
        by_cases hx : x = c
        · subst hx; simp only [if_true] at h; exact ⟨[x], xs, rfl, rfl, h⟩
        · simp [hx] at h
      · rintro ⟨s1, s2, hs, rfl, hk⟩
        injection hs with h1 h2
        subst h1; subst h2; simpa using hk
  | cls p =>
    intro s caps k _
    cases s with
    | nil =>
      simp only [Regex.run, Regex.Matches, Option.isSome_none, Bool.false_eq_true, false_iff]
      rintro ⟨s1, s2, hs, ⟨x, _, rfl⟩, _⟩
      simp at hs
    | cons x xs =>
      simp only [Regex.run, Regex.Matches]
      constructor
      · intro h
        by_cases hx : p x = true
        · simp only [hx, if_true] at h; exact ⟨[x], xs, rfl, ⟨x, hx, rfl⟩, h⟩
        · simp [hx] at h
      · rintro ⟨s1, s2, hs, ⟨y, hy, rfl⟩, hk⟩
        injection hs with h1 h2
        subst h1; subst h2; simpa [hy] using hk
  | seq a b iha ihb =>
    intro s caps k hk
    have hkb : ∀ t c c', ((fun s1 caps1 => b.run s1 caps1 k) t c).isSome
        = ((fun s1 caps1 => b.run s1 caps1 k) t c').isSome := by
      intro t c c'
      have h1 := ihb t c k hk
      have h2 := ihb t c' k hk
      have : (b.run t c k).isSome = true ↔ (b.run t c' k).isSome = true := by
        rw [h1, h2]
        constructor
        · rintro ⟨s1, s2, hs, hm, hk'⟩; exact ⟨s1, s2, hs, hm, by rw [hk s2 c' c]; exact hk'⟩
        · rintro ⟨s1, s2, hs, hm, hk'⟩; exact ⟨s1, s2, hs, hm, by rw [hk s2 c c']; exact hk'⟩
      exact Bool.eq_iff_iff.mpr this
    simp only [Regex.run, Regex.Matches]
    rw [iha s caps _ hkb]
    constructor
    · rintro ⟨s1, s2, hs, hm, hrest⟩
      obtain ⟨t1, t2, ht, hmb, hk'⟩ := (ihb s2 caps k hk).mp hrest
      exact ⟨s1 ++ t1, t2, by rw [hs, ht, List.append_assoc], ⟨s1, t1, rfl, hm, hmb⟩, hk'⟩
    · rintro ⟨s12, t2, hs, ⟨s1, t1, h12, hm, hmb⟩, hk'⟩
      exact ⟨s1, t1 ++ t2, by rw [hs, h12, List.append_assoc], hm,
        (ihb (t1 ++ t2) caps k hk).mpr ⟨t1, t2, rfl, hmb, hk'⟩⟩
  | plus p =>
    intro s caps k _
    simp only [Regex.run, Regex.Matches]
    exact plusRun_isSome p s (fun s1 => k s1 caps)
  | opt a iha =>
    intro s caps k hk
    simp only [Regex.run, Regex.Matches]
    have ha := iha s caps k hk
    cases hr : a.run s caps k with
    | some r =>
      rw [hr] at ha
      simp only [Option.isSome_some, true_iff] at ha ⊢
      obtain ⟨s1, s2, hs, hm, hk'⟩ := ha
      exact ⟨s1, s2, hs, Or.inr hm, hk'⟩
    | none =>
      rw [hr] at ha
      simp only [Option.isSome_none, Bool.false_eq_true, false_iff] at ha
      simp only
      constructor
      · intro h; exact ⟨[], s, rfl, Or.inl rfl, h⟩
      · rintro ⟨s1, s2, hs, hm | hm, hk'⟩
        · subst hm; simpa [hs] using hk'
        · exact absurd ⟨s1, s2, hs, hm, hk'⟩ ha
  | group i a iha =>
    intro s caps k hk
    simp only [Regex.run, Regex.Matches]
    rw [iha s caps _ (fun t c c' => hk t _ _)]
    constructor
    · rintro ⟨s1, s2, hs, hm, hk'⟩
      exact ⟨s1, s2, hs, hm, by rw [hk s2 caps _]; exact hk'⟩
    · rintro ⟨s1, s2, hs, hm, hk'⟩
      exact ⟨s1, s2, hs, hm, by rw [hk s2 _ caps]; exact hk'⟩

theorem Regex.matchAt_isSome (re : Regex) (s : GoString) :
    (re.matchAt s).isSome = true ↔ ∃ s1 s2, s = s1 ++ s2 ∧ re.Matches s1 := by
  unfold Regex.matchAt
  have h := Regex.run_isSome re s (List.replicate (re.numSubexp + 1) [])
    (fun s1 caps => some (caps.set 0 (s.take (s.length - s1.length)))) (fun _ _ _ => rfl)
  rw [h]
  simp

theorem Regex.firstSubmatch_isSome (re : Regex) (s : GoString) :
    (re.firstSubmatch s).isSome = true ↔
      ∃ pre m post, s = pre ++ m ++ post ∧ re.Matches m := by
  induction s with
  | nil =>
    simp only [Regex.firstSubmatch]
    rw [Regex.matchAt_isSome]
    constructor
    · rintro ⟨s1, s2, hs, hm⟩; exact ⟨[], s1, s2, by simpa using hs, hm⟩
    · rintro ⟨pre, m, post, hs, hm⟩
      have h1 := List.append_eq_nil.mp hs.symm
      have h2 := List.append_eq_nil.mp h1.1
      exact ⟨m, [], by simp [h2.2], hm⟩
  | cons c cs ih =>
    simp only [Regex.firstSubmatch]
    have hat := Regex.matchAt_isSome re (c :: cs)
    cases hr : re.matchAt (c :: cs) with
    | some m =>
      rw [hr] at hat
      simp only [Option.isSome_some, true_iff] at hat ⊢
      obtain ⟨s1, s2, hs, hm⟩ := hat
      exact ⟨[], s1, s2, by simpa using hs, hm⟩
    | none =>
      rw [hr] at hat
      simp only [Option.isSome_none, Bool.false_eq_true, false_iff] at hat
      simp only
      rw [ih]
      constructor
      · rintro ⟨pre, m, post, hs, hm⟩
        exact ⟨c :: pre, m, post, by rw [hs]; simp, hm⟩
      · rintro ⟨pre, m, post, hs, hm⟩
        cases pre with
        | nil => exact absurd ⟨m, post, by simpa using hs, hm⟩ hat
        | cons x pre' =>
          refine ⟨pre', m, post, ?_, hm⟩
          simp only [List.cons_append] at hs
          injection hs

theorem thumbnailRegex_matches_iff (m : GoString) :
    thumbnailRegex.Matches m ↔ IsWireForm isWord m := by
  constructor
  · simp only [thumbnailRegex, Regex.cat, Regex.Matches]
    rintro ⟨_, _, rfl, ⟨a, ha, rfl⟩, _, _, rfl, ⟨b, hb, rfl⟩, _, _, rfl, rfl,
      _, _, rfl, ⟨c, hc, rfl⟩, _, _, rfl, ⟨d, hd, rfl⟩, _, _, rfl, rfl,
      _, _, rfl, ⟨e, he, rfl⟩, _, _, rfl, ⟨f, hf, rfl⟩, _, _, rfl, rfl,
      name, _, rfl, hname, _, _, rfl, rfl,
      first, _, rfl, hfirst, _, _, rfl, rfl,
      second, _, rfl, hsecond, mk, _, rfl, hmk, _, ext, rfl, rfl, hext⟩
    have hmk' : ∃ dbl, mk = marker dbl := by
      rcases hmk with rfl | ⟨_, _, rfl, rfl, _, _, rfl, rfl, rfl⟩
      · exact ⟨false, rfl⟩
      · exact ⟨true, rfl⟩
    obtain ⟨dbl, rfl⟩ := hmk'
    refine ⟨⟨[a, b], [c, d], [e, f], name, first, second, dbl, ext⟩, ?_, ?_⟩
    · refine ⟨⟨rfl, ?_⟩, ⟨rfl, ?_⟩, ⟨rfl, ?_⟩, hname, hfirst, hsecond, hext⟩ <;>
        simp [ha, hb, hc, hd, he, hf]
    · simp [ThumbnailParts.path]
  · rintro ⟨⟨s1, s2, s3, name, first, second, dbl, ext⟩,
      ⟨⟨h1, h1'⟩, ⟨h2, h2'⟩, ⟨h3, h3'⟩, hname, hfirst, hsecond, hext⟩, rfl⟩
    simp only at h1 h1' h2 h2' h3 h3' hname hfirst hsecond hext
    obtain ⟨a, b, rfl⟩ := List.length_eq_two.mp h1
    obtain ⟨c, d, rfl⟩ := List.length_eq_two.mp h2
    obtain ⟨e, f, rfl⟩ := List.length_eq_two.mp h3
    simp only [thumbnailRegex, Regex.cat, Regex.Matches, ThumbnailParts.path]
    refine ⟨[a], _, rfl, ⟨a, h1' a (by simp), rfl⟩, [b], _, rfl, ⟨b, h1' b (by simp), rfl⟩,
      ['/'], _, rfl, rfl,
      [c], _, rfl, ⟨c, h2' c (by simp), rfl⟩, [d], _, rfl, ⟨d, h2' d (by simp), rfl⟩,
      ['/'], _, rfl, rfl,
      [e], _, rfl, ⟨e, h3' e (by simp), rfl⟩, [f], _, rfl, ⟨f, h3' f (by simp), rfl⟩,
      ['/'], _, rfl, rfl,
      name, _, rfl, hname, ['_'], _, rfl, rfl,
      first, _, rfl, hfirst, ['x'], _, rfl, rfl,
      second, _, rfl, hsecond, marker dbl, _, rfl, ?_, ['.'], ext, rfl, rfl, hext⟩
    cases dbl with
    | false => exact Or.inl rfl
    | true => exact Or.inr ⟨['@'], _, rfl, rfl, ['2'], ['x'], rfl, rfl, rfl⟩

/-! ## The match at a well-formed path -/

theorem plusRun_none {α : Type} (p : Char → Bool) (s : GoString) (k : GoString → Option α)
    (h : ∀ u v, s = u ++ v → u ≠ [] → (∀ x ∈ u, p x = true) → k v = none) :
    plusRun p s k = none := by
  induction s with
  | nil => rfl
  | cons c cs ih =>
    unfold plusRun
    by_cases hp : p c = true
    · have h1 : plusRun p cs k = none := by
        apply ih
        intro u v huv hu hall
        refine h (c :: u) v (by rw [huv]; rfl) (by simp) ?_
        intro x hx
        rcases List.mem_cons.mp hx with rfl | hx
        · exact hp
        · exact hall x hx
      have h2 : k cs = none := h [c] cs rfl (by simp) (by simpa using hp)
      simp [hp, h1, h2]
    · simp [hp]

/-- Greedy `[class]+` on `run ++ rest`: when the continuation accepts `rest` and
rejects what is left after every longer run, the result is the continuation's
answer on `rest`. -/
theorem plusRun_first {α : Type} (p : Char → Bool) (run rest : GoString)
    (k : GoString → Option α) (r : α)
    (hne : run ≠ []) (hall : ∀ x ∈ run, p x = true) (hk : k rest = some r)
    (hlonger : ∀ u v, rest = u ++ v → u ≠ [] → (∀ x ∈ u, p x = true) → k v = none) :
    plusRun p (run ++ rest) k = some r := by
  induction run with
  | nil => exact absurd rfl hne
  | cons c cs ih =>
    have hc : p c = true := hall c (List.mem_cons_self _ _)
    rw [List.cons_append, plusRun]
    simp only [hc, if_true]
    by_cases hcs : cs = []
    · subst hcs
      rw [List.nil_append, plusRun_none p rest k hlonger]
      exact hk
    · rw [ih hcs (fun x hx => hall x (List.mem_cons_of_mem _ hx))]

theorem take_length_sub_append (a b : GoString) :
    (a ++ b).take ((a ++ b).length - b.length) = a := by
  simp

/-- A capturing group around a greedy `[class]+`. -/
theorem run_group_plus {α : Type} (i : Nat) (p : Char → Bool) (run rest : GoString)
    (caps : Submatch) (k : GoString → Submatch → Option α) (r : α)
    (hne : run ≠ []) (hall : ∀ x ∈ run, p x = true)
    (hk : k rest (caps.set i run) = some r)
    (hlonger : ∀ u v, rest = u ++ v → u ≠ [] → (∀ x ∈ u, p x = true) →
      k v (caps.set i (run ++ u)) = none) :
    (Regex.group i (.plus p)).run (run ++ rest) caps k = some r := by
  simp only [Regex.run]
  refine plusRun_first p run rest _ r hne hall ?_ ?_
  · simp only [take_length_sub_append]
    exact hk
  · intro u v huv hu hallu
    have : (run ++ rest).take ((run ++ rest).length - v.length) = run ++ u := by
      rw [huv, ← List.append_assoc]
      exact take_length_sub_append (run ++ u) v
    simp only [this]
    exact hlonger u v huv hu hallu

/-- The marker followed by the dot: its first character is `@` or `.`. -/
theorem marker_dot_head (dbl : Bool) (ext : GoString) :
    ∃ m M, marker dbl ++ '.' :: ext = m :: M ∧ (m = '@' ∨ m = '.') := by
  cases dbl with
  | false => exact ⟨'.', ext, rfl, Or.inr rfl⟩
  | true => exact ⟨'@', '2' :: 'x' :: '.' :: ext, rfl, Or.inl rfl⟩

/-- No non-empty run of characters of the class `p` starts a string whose first
character is outside the class. -/
theorem no_run_of_head {p : Char → Bool} {m : Char} {M u v : GoString}
    (hm : p m = false) (h : m :: M = u ++ v) (hu : u ≠ []) (hall : ∀ x ∈ u, p x = true) :
    False := by
  cases u with
  | nil => exact hu rfl
  | cons x u' =>
    injection h with h1 _
    have := hall x (List.mem_cons_self _ _)
    rw [← h1, hm] at this
    exact Bool.noConfusion this

/-- Tail of the expression from the extension group on. -/
theorem run_ext {α : Type} (ext : GoString) (caps : Submatch)
    (k : GoString → Submatch → Option α) (r : α)
    (hne : ext ≠ []) (hall : ∀ x ∈ ext, isWord x = true)
    (hk : k [] (caps.set 5 ext) = some r) :
    (Regex.group 5 (.plus isWord)).run ext caps k = some r := by
  have h := run_group_plus 5 isWord ext [] caps k r hne hall hk (by
    intro u v huv hu _
    exact absurd (List.append_eq_nil.mp huv.symm).1 hu)
  simpa using h

/-- Tail of the expression from the optional marker on. -/
theorem run_marker {α : Type} (dbl : Bool) (ext : GoString) (caps : Submatch)
    (k : GoString → Submatch → Option α) (r : α)
    (hne : ext ≠ []) (hall : ∀ x ∈ ext, isWord x = true)
    (hk : k [] ((if dbl then caps.set 4 "@2x".toList else caps).set 5 ext) = some r) :
    (Regex.cat [.opt (.group 4 (Regex.cat [.char '@', .char '2', .char 'x'])),
      .char '.', .group 5 (.plus isWord)]).run (marker dbl ++ '.' :: ext) caps k = some r := by
  cases dbl with
  | false =>
    have h5 := run_ext ext caps k r hne hall (by simpa using hk)
    simp only [Regex.cat, Regex.run] at h5 ⊢
    simp [marker, h5]
  | true =>
    have h5 := run_ext ext (caps.set 4 "@2x".toList) k r hne hall (by simpa using hk)
    simp only [Regex.cat, Regex.run] at h5 ⊢
    simp only [marker, if_true]
    have : "@2x".toList ++ '.' :: ext = '@' :: '2' :: 'x' :: '.' :: ext := rfl
    rw [this]
    simp only [if_true]
    have e : ('@' :: '2' :: 'x' :: '.' :: ext).take
        (('@' :: '2' :: 'x' :: '.' :: ext).length - ('.' :: ext).length) = "@2x".toList := by
      have := take_length_sub_append "@2x".toList ('.' :: ext)
      exact this
    rw [e, h5]

theorem Regex.cat_cons (r r' : Regex) (rs : List Regex) :
    Regex.cat (r :: r' :: rs) = .seq r (Regex.cat (r' :: rs)) := rfl

theorem Regex.run_seq {α : Type} (a b : Regex) (s : GoString) (caps : Submatch)
    (k : GoString → Submatch → Option α) :
    (Regex.seq a b).run s caps k = a.run s caps (fun s1 caps1 => b.run s1 caps1 k) := rfl

theorem Regex.run_char_cons {α : Type} (c : Char) (s : GoString) (caps : Submatch)
    (k : GoString → Submatch → Option α) :
    (Regex.char c).run (c :: s) caps k = k s caps := by
  simp [Regex.run]

theorem Regex.run_char_ne {α : Type} (c : Char) (s : GoString) (caps : Submatch)
    (k : GoString → Submatch → Option α) (h : ∀ t, s ≠ c :: t) :
    (Regex.char c).run s caps k = none := by
  cases s with
  | nil => rfl
  | cons x xs =>
    have : x ≠ c := fun hx => h xs (by rw [hx])
    simp [Regex.run, this]

theorem Regex.run_cls_cons {α : Type} (p : Char → Bool) (c : Char) (s : GoString)
    (caps : Submatch) (k : GoString → Submatch → Option α) (h : p c = true) :
    (Regex.cls p).run (c :: s) caps k = k s caps := by
  simp [Regex.run, h]

/-- Tail of the expression from the underscore on: the two numbers, the marker
and the extension. -/
theorem run_sizes {α : Type} (first second : GoString) (dbl : Bool) (ext : GoString)
    (caps : Submatch) (k : GoString → Submatch → Option α) (r : α)
    (hfirst : first ≠ [] ∧ ∀ x ∈ first, isDigit x = true)
    (hsecond : second ≠ [] ∧ ∀ x ∈ second, isDigit x = true)
    (hext : ext ≠ [] ∧ ∀ x ∈ ext, isWord x = true)
    (hk : k [] ((if dbl then ((caps.set 2 first).set 3 second).set 4 "@2x".toList
      else (caps.set 2 first).set 3 second).set 5 ext) = some r) :
    (Regex.cat [.char '_', .group 2 (.plus isDigit), .char 'x', .group 3 (.plus isDigit),
      .opt (.group 4 (Regex.cat [.char '@', .char '2', .char 'x'])),
      .char '.', .group 5 (.plus isWord)]).run
      ('_' :: (first ++ ('x' :: (second ++ (marker dbl ++ ('.' :: ext)))))) caps k = some r := by
  rw [Regex.cat_cons, Regex.run_seq, Regex.run_char_cons, Regex.cat_cons, Regex.run_seq]
  refine run_group_plus 2 isDigit first _ caps _ r hfirst.1 hfirst.2 ?_ ?_
  · rw [Regex.cat_cons, Regex.run_seq, Regex.run_char_cons, Regex.cat_cons, Regex.run_seq]
    refine run_group_plus 3 isDigit second _ _ _ r hsecond.1 hsecond.2 ?_ ?_
    · exact run_marker dbl ext _ k r hext.1 hext.2 hk
    · intro u v huv hu hall
      obtain ⟨m, M, hM, hm⟩ := marker_dot_head dbl ext
      rw [hM] at huv
      have hmd : isDigit m = false := by rcases hm with rfl | rfl <;> decide
      exact (no_run_of_head hmd huv hu hall).elim
  · intro u v huv hu hall
    exact (no_run_of_head (by decide) huv hu hall).elim

/-- After a non-empty run of `[\w-]` characters taken from `_<first>x<second>`
and what follows, the input does not go on with an underscore. -/
theorem no_underscore_after {first second ext u v : GoString} {dbl : Bool}
    (hfirst : ∀ x ∈ first, isDigit x = true) (hsecond : ∀ x ∈ second, isDigit x = true)
    (h : '_' :: (first ++ ('x' :: (second ++ (marker dbl ++ ('.' :: ext))))) = u ++ v)
    (hu : u ≠ []) (hall : ∀ x ∈ u, isWordOrDash x = true) (t : GoString) :
    v ≠ '_' :: t := by
  intro hv
  subst hv
  cases u with
  | nil => exact hu rfl
  | cons x u' =>
    rw [List.cons_append] at h
    injection h with _ h
    obtain ⟨m, M, hM, hm⟩ := marker_dot_head dbl ext
    have hT : first ++ ('x' :: (second ++ (marker dbl ++ ('.' :: ext))))
        = (first ++ 'x' :: second) ++ m :: M := by
      rw [hM]; simp
    rw [hT] at h
    have hD : ∀ y ∈ first ++ 'x' :: second, y ≠ '_' := by
      intro y hy
      rcases List.mem_append.mp hy with hy | hy
      · intro e; subst e; exact absurd (hfirst _ hy) (by decide)
      · rcases List.mem_cons.mp hy with hy | hy
        · rw [hy]; decide
        · intro e; subst e; exact absurd (hsecond _ hy) (by decide)
    have hm1 : m ≠ '_' := by rcases hm with rfl | rfl <;> decide
    have hm2 : isWordOrDash m = false := by rcases hm with rfl | rfl <;> decide
    rcases List.append_eq_append_iff.mp h with ⟨a', h1, h2⟩ | ⟨c', h1, h2⟩
    · cases a' with
      | nil =>
        rw [List.nil_append] at h2
        injection h2 with h2 _
        exact hm1 h2
      | cons y a'' =>
        rw [List.cons_append] at h2
        injection h2 with h2 _
        have hy : isWordOrDash y = true :=
          hall y (List.mem_cons_of_mem _ (by rw [h1]; simp))
        rw [← h2, hm2] at hy
        exact Bool.noConfusion hy
    · cases c' with
      | nil =>
        rw [List.nil_append] at h2
        injection h2 with h2 _
        exact hm1 h2.symm
      | cons y c'' =>
        rw [List.cons_append] at h2
        injection h2 with h2 _
        exact hD y (by rw [h1]; simp) h2.symm

/-- The match of `thumbnailRegex` at the start of a well-formed thumbnail path:
the whole path, then the name, the two numbers, the marker and the extension. -/
theorem matchAt_path (p : ThumbnailParts) (hp : p.WellFormed isWord) :
    thumbnailRegex.matchAt p.path =
      some [p.path, p.name, p.first, p.second, marker p.doubled, p.ext] := by
  obtain ⟨s1, s2, s3, name, first, second, dbl, ext⟩ := p
  obtain ⟨⟨h1, h1'⟩, ⟨h2, h2'⟩, ⟨h3, h3'⟩, hname, hfirst, hsecond, hext⟩ := hp
  simp only at h1 h1' h2 h2' h3 h3' hname hfirst hsecond hext
  obtain ⟨a, b, rfl⟩ := List.length_eq_two.mp h1
  obtain ⟨c, d, rfl⟩ := List.length_eq_two.mp h2
  obtain ⟨e, f, rfl⟩ := List.length_eq_two.mp h3
  have ha := h1' a (by simp)
  have hb := h1' b (by simp)
  have hc := h2' c (by simp)
  have hd := h2' d (by simp)
  have he := h3' e (by simp)
  have hf := h3' f (by simp)
  simp only [ThumbnailParts.path, List.cons_append, List.nil_append]
  unfold Regex.matchAt thumbnailRegex
  have hn : (Regex.cat
      [.cls isWord, .cls isWord, .char '/', .cls isWord, .cls isWord, .char '/',
       .cls isWord, .cls isWord, .char '/',
       .group 1 (.plus isWordOrDash), .char '_',
       .group 2 (.plus isDigit), .char 'x',
       .group 3 (.plus isDigit),
       .opt (.group 4 (Regex.cat [.char '@', .char '2', .char 'x'])),
       .char '.', .group 5 (.plus isWord)]).numSubexp + 1 = 6 := rfl
  rw [hn]
  rw [Regex.cat_cons, Regex.run_seq, Regex.run_cls_cons _ _ _ _ _ ha,
    Regex.cat_cons, Regex.run_seq, Regex.run_cls_cons _ _ _ _ _ hb,
    Regex.cat_cons, Regex.run_seq, Regex.run_char_cons,
    Regex.cat_cons, Regex.run_seq, Regex.run_cls_cons _ _ _ _ _ hc,
    Regex.cat_cons, Regex.run_seq, Regex.run_cls_cons _ _ _ _ _ hd,
    Regex.cat_cons, Regex.run_seq, Regex.run_char_cons,
    Regex.cat_cons, Regex.run_seq, Regex.run_cls_cons _ _ _ _ _ he,
    Regex.cat_cons, Regex.run_seq, Regex.run_cls_cons _ _ _ _ _ hf,
    Regex.cat_cons, Regex.run_seq, Regex.run_char_cons,
    Regex.cat_cons, Regex.run_seq]
  refine run_group_plus 1 isWordOrDash name _ _ _ _ hname.1 hname.2 ?_ ?_
  · refine run_sizes first second dbl ext _ _ _ hfirst hsecond hext ?_
    cases dbl <;> simp [marker, List.replicate]
  · intro u v huv hu hall
    rw [Regex.cat_cons, Regex.run_seq]
    exact Regex.run_char_ne _ _ _ _ (no_underscore_after hfirst.2 hsecond.2 huv hu hall)

/-! ## The shards of `Encode` -/

theorem stringsReplace_bad_words (s : GoString) :
    ∀ skip, List.Forall₂ Replaced (s.drop skip)
      (stringsReplace "/ad/".toList "/g0/".toList skip s) := by
  induction s with
  | nil => intro skip; simp [stringsReplace]
  | cons c cs ih =>
    intro skip
    cases skip with
    | succ k => simpa [stringsReplace] using ih k
    | zero =>
      rw [stringsReplace]
      by_cases hpre : ("/ad/".toList).isPrefixOf (c :: cs) = true
      · obtain ⟨t, ht⟩ := List.isPrefixOf_iff_prefix.mp hpre
        have h1 : "/ad/".toList ++ t = '/' :: 'a' :: 'd' :: '/' :: t := rfl
        rw [h1] at ht
        injection ht with hc hcs
        subst hc; subst hcs
        have := ih 3
        simp only [hpre, if_true, List.drop_zero]
        have h3 : ("/ad/".toList).length - 1 = 3 := rfl
        rw [h3]
        have h2 : "/g0/".toList ++ stringsReplace "/ad/".toList "/g0/".toList 3 ('a' :: 'd' :: '/' :: t)
            = '/' :: 'g' :: '0' :: '/' ::
              stringsReplace "/ad/".toList "/g0/".toList 3 ('a' :: 'd' :: '/' :: t) := rfl
        rw [h2]
        refine List.Forall₂.cons (Or.inl rfl) (List.Forall₂.cons (Or.inr (Or.inl ⟨rfl, rfl⟩))
          (List.Forall₂.cons (Or.inr (Or.inr ⟨rfl, rfl⟩)) (List.Forall₂.cons (Or.inl rfl) ?_)))
        simpa using this
      · simp only [hpre, if_false, List.drop_zero, Bool.false_eq_true]
        exact List.Forall₂.cons (Or.inl rfl) (by simpa using ih 0)

theorem Replaced_slash {c : Char} (h : Replaced '/' c) : c = '/' := by
  rcases h with h | ⟨h, _⟩ | ⟨h, _⟩
  · exact h
  · exact absurd h (by decide)
  · exact absurd h (by decide)

theorem Replaced_isWord {c c' : Char} (hc : isWord c = true) (h : Replaced c c') :
    isWord c' = true := by
  rcases h with h | ⟨_, h⟩ | ⟨_, h⟩
  · rw [h]; exact hc
  · rw [h]; decide
  · rw [h]; decide

theorem isWord_digitChar : ∀ i < 16, isWord (Nat.digitChar i) = true := by
  decide

theorem isWord_hexByte (b : Nat) (hb : b < 256) : ∀ c ∈ hexByte b, isWord c = true := by
  intro c hc
  simp only [hexByte, List.mem_cons, List.mem_singleton, List.not_mem_nil, or_false] at hc
  rcases hc with rfl | rfl
  · exact isWord_digitChar _ (by omega)
  · exact isWord_digitChar _ (Nat.mod_lt _ (by decide))

/-- The three shards at the head of `Encode(name)`: two word characters each,
separated by slashes. -/
theorem Encode_shards (name : GoString) :
    ∃ a b c d e f, (Encode name).take 8 = [a, b, '/', c, d, '/', e, f] ∧
      isWord a = true ∧ isWord b = true ∧ isWord c = true ∧ isWord d = true ∧
      isWord e = true ∧ isWord f = true := by
  obtain ⟨b0, b1, b2, rest, hsum, h0, h1, h2⟩ :
      ∃ b0 b1 b2 rest, MD5.Sum (toBytes ("media/image/".toList ++ name)) = b0 :: b1 :: b2 :: rest ∧
        b0 < 256 ∧ b1 < 256 ∧ b2 < 256 := by
    simp only [MD5.Sum, MD5.wordBytes]
    exact ⟨_, _, _, _, rfl, Nat.mod_lt _ (by decide), Nat.mod_lt _ (by decide),
      Nat.mod_lt _ (by decide)⟩
  have hrep := stringsReplace_bad_words
    (slice (sprintfHexBytes (b0 :: b1 :: b2 :: rest)) 0 2 ++ "/".toList
      ++ slice (sprintfHexBytes (b0 :: b1 :: b2 :: rest)) 2 4 ++ "/".toList
      ++ slice (sprintfHexBytes (b0 :: b1 :: b2 :: rest)) 4 6 ++ "/".toList ++ name) 0
  have hin : slice (sprintfHexBytes (b0 :: b1 :: b2 :: rest)) 0 2 ++ "/".toList
      ++ slice (sprintfHexBytes (b0 :: b1 :: b2 :: rest)) 2 4 ++ "/".toList
      ++ slice (sprintfHexBytes (b0 :: b1 :: b2 :: rest)) 4 6 ++ "/".toList ++ name
      = Nat.digitChar (b0 / 16) :: Nat.digitChar (b0 % 16) :: '/' ::
        Nat.digitChar (b1 / 16) :: Nat.digitChar (b1 % 16) :: '/' ::
        Nat.digitChar (b2 / 16) :: Nat.digitChar (b2 % 16) :: '/' :: name := by
    have hslash : "/".toList = ['/'] := rfl
    simp [slice, sprintfHexBytes, hexByte, hslash]
  rw [hin, List.drop_zero] at hrep
  have hE : Encode name = stringsReplace "/ad/".toList "/g0/".toList 0
      (Nat.digitChar (b0 / 16) :: Nat.digitChar (b0 % 16) :: '/' ::
        Nat.digitChar (b1 / 16) :: Nat.digitChar (b1 % 16) :: '/' ::
        Nat.digitChar (b2 / 16) :: Nat.digitChar (b2 % 16) :: '/' :: name) := by
    simp only [Encode, ReplaceBadWords, hsum, hin]
  rw [hE]
  generalize stringsReplace "/ad/".toList "/g0/".toList 0 _ = out at hrep
  cases hrep with
  | cons r0 hrep => cases hrep with
    | cons r1 hrep => cases hrep with
      | cons r2 hrep => cases hrep with
        | cons r3 hrep => cases hrep with
          | cons r4 hrep => cases hrep with
            | cons r5 hrep => cases hrep with
              | cons r6 hrep => cases hrep with
                | cons r7 hrep =>
                  have e2 := Replaced_slash r2
                  have e5 := Replaced_slash r5
                  subst e2; subst e5
                  exact ⟨_, _, _, _, _, _, rfl,
                    Replaced_isWord (isWord_digitChar _ (by omega)) r0,
                    Replaced_isWord (isWord_digitChar _ (Nat.mod_lt _ (by decide))) r1,
                    Replaced_isWord (isWord_digitChar _ (by omega)) r3,
                    Replaced_isWord (isWord_digitChar _ (Nat.mod_lt _ (by decide))) r4,
                    Replaced_isWord (isWord_digitChar _ (by omega)) r6,
                    Replaced_isWord (isWord_digitChar _ (Nat.mod_lt _ (by decide))) r7⟩

/-! ## `Atoi` on decimal renderings -/

theorem digitChar_value : ∀ m < 10, (Nat.digitChar m).toNat - 48 = m := by
  decide

theorem digitChar_isDigit : ∀ m < 10, (Nat.digitChar m).isDigit = true := by
  decide

theorem toDigitsCore_value (fuel : Nat) :
    ∀ n ds, n < fuel →
      (Nat.toDigitsCore 10 fuel n ds).foldl atoiStep 0 = ds.foldl atoiStep n := by
  induction fuel with
  | zero => intro n ds h; omega
  | succ fuel ih =>
    intro n ds h
    have hm : n % 10 < 10 := Nat.mod_lt _ (by decide)
    simp only [Nat.toDigitsCore]
    by_cases h0 : n / 10 = 0
    · simp only [h0, if_true, List.foldl_cons, atoiStep, digitChar_value _ hm]
      have : 10 * 0 + n % 10 = n := by omega
      rw [this]
    · simp only [h0, if_false]
      rw [ih (n / 10) _ (by omega)]
      simp only [List.foldl_cons, atoiStep, digitChar_value _ hm]
      have : 10 * (n / 10) + n % 10 = n := by omega
      rw [this]

theorem toDigitsCore_isDigit (fuel : Nat) :
    ∀ n ds, (∀ c ∈ ds, Char.isDigit c = true) →
      ∀ c ∈ Nat.toDigitsCore 10 fuel n ds, Char.isDigit c = true := by
  induction fuel with
  | zero => intro n ds h; simpa [Nat.toDigitsCore] using h
  | succ fuel ih =>
    intro n ds h
    have hm : n % 10 < 10 := Nat.mod_lt _ (by decide)
    have hds : ∀ c ∈ Nat.digitChar (n % 10) :: ds, Char.isDigit c = true := by
      intro c hc
      rcases List.mem_cons.mp hc with rfl | hc
      · exact digitChar_isDigit _ hm
      · exact h c hc
    simp only [Nat.toDigitsCore]
    by_cases h0 : n / 10 = 0
    · simpa only [h0, if_true] using hds
    · simpa only [h0, if_false] using ih (n / 10) _ hds

theorem toDigitsCore_ne_nil (fuel : Nat) :
    ∀ n ds, ds ≠ [] → Nat.toDigitsCore 10 fuel n ds ≠ [] := by
  induction fuel with
  | zero => intro n ds h; simpa [Nat.toDigitsCore] using h
  | succ fuel ih =>
    intro n ds _
    simp only [Nat.toDigitsCore]
    by_cases h0 : n / 10 = 0
    · simp [h0]
    · simpa only [h0, if_false] using ih (n / 10) _ (by simp)

theorem decimal_ne_nil (n : Nat) : decimal n ≠ [] := by
  unfold decimal Nat.toDigits
  simp only [Nat.toDigitsCore]
  by_cases h0 : n / 10 = 0
  · simp [h0]
  · simpa only [h0, if_false] using toDigitsCore_ne_nil n (n / 10) _ (by simp)

theorem decimal_isDigit (n : Nat) : ∀ c ∈ decimal n, isDigit c = true := by
  intro c hc
  exact toDigitsCore_isDigit (n + 1) n [] (by simp) c hc

theorem decimal_value (n : Nat) : (decimal n).foldl atoiStep 0 = n := by
  unfold decimal Nat.toDigits
  rw [toDigitsCore_value (n + 1) n [] (by omega)]
  rfl

/-- Function `Atoi` reads back the decimal rendering of a number that fits an `int`. -/
theorem Atoi_decimal (n : Nat) (h : n < 2 ^ 63) : Atoi (decimal n) = ((n : Int), false) := by
  have hne := decimal_ne_nil n
  have hdig := decimal_isDigit n
  obtain ⟨c, cs, hcs⟩ : ∃ c cs, decimal n = c :: cs := by
    cases hd : decimal n with
    | nil => exact absurd hd hne
    | cons c cs => exact ⟨c, cs, rfl⟩
  have hc : c.isDigit = true := hdig c (by rw [hcs]; simp)
  have hminus : c ≠ '-' := by intro e; subst e; exact absurd hc (by decide)
  have hplus : c ≠ '+' := by intro e; subst e; exact absurd hc (by decide)
  have hall : (decimal n).all Char.isDigit = true := by
    rw [List.all_eq_true]; exact hdig
  have hval := decimal_value n
  unfold Atoi
  rw [hcs] at hall hval ⊢
  have hfold : List.foldl (fun n c => 10 * n + (c.toNat - 48)) 0 (c :: cs) = n := hval
  simp only [List.head?_cons, Option.some.injEq, hminus, hplus, or_self, if_false, hall,
    not_true_eq_false, or_false, hfold, reduceCtorEq, decide_False, Bool.false_eq_true]
  have h2 : n < 9223372036854775808 := by
    have : (2 : Nat) ^ 63 = 9223372036854775808 := by norm_num
    omega
  simp [h2]

/-! ## Decoding a well-formed path -/

theorem firstSubmatch_of_matchAt (re : Regex) (s : GoString) (m : Submatch)
    (h : re.matchAt s = some m) : re.firstSubmatch s = some m := by
  cases s with
  | nil => simpa [Regex.firstSubmatch] using h
  | cons c cs => simp [Regex.firstSubmatch, h]

/-- What `DecodeThumbnailName` returns on a well-formed thumbnail path: the name
with the extension, the number before the `x` as `height`, the number after it
as `width`, and whether the marker is there. -/
theorem decode_path (p : ThumbnailParts) (hp : p.WellFormed isWord) :
    DecodeThumbnailName p.path =
      .ok { fileName := p.name ++ '.' :: p.ext
            height := (Atoi p.first).1
            width := (Atoi p.second).1
            retina := p.doubled } := by
  unfold DecodeThumbnailName
  rw [firstSubmatch_of_matchAt _ _ _ (matchAt_path p hp)]
  have hm : decide (marker p.doubled = "@2x".toList) = p.doubled := by
    cases p.doubled <;> decide
  simp
  exact hm

/-- The decode of the path built from `Encode(stem.ext)`, W, H and the variant:
the name and the variant come back, W comes back as `height` and H as `width`. -/
theorem decode_encode_path (stem ext : GoString) (W H : Nat) (doubled : Bool)
    (hstem : stem ≠ [] ∧ ∀ x ∈ stem, isWordOrDash x = true)
    (hext : ext ≠ [] ∧ ∀ x ∈ ext, isWord x = true)
    (hW : W < 2 ^ 63) (hH : H < 2 ^ 63) :
    DecodeThumbnailName
        ((Encode (stem ++ '.' :: ext)).take 8 ++ ('/' :: (stem ++ ('_' :: (decimal W ++
          ('x' :: (decimal H ++ (marker doubled ++ ('.' :: ext))))))))) =
      .ok { fileName := stem ++ '.' :: ext, height := W, width := H, retina := doubled } := by
  obtain ⟨a, b, c, d, e, f, htake, ha, hb, hc, hd, he, hf⟩ := Encode_shards (stem ++ '.' :: ext)
  have hwf : ThumbnailParts.WellFormed isWord
      ⟨[a, b], [c, d], [e, f], stem, decimal W, decimal H, doubled, ext⟩ := by
    refine ⟨⟨rfl, ?_⟩, ⟨rfl, ?_⟩, ⟨rfl, ?_⟩, hstem, ⟨decimal_ne_nil W, decimal_isDigit W⟩,
      ⟨decimal_ne_nil H, decimal_isDigit H⟩, hext⟩ <;> simp [ha, hb, hc, hd, he, hf]
  have h := decode_path _ hwf
  simp only [ThumbnailParts.path, Atoi_decimal W hW, Atoi_decimal H hH] at h
  rw [htake]
  exact h

/-! ## The materialisation branch -/

theorem mkdirStep_calls {σ : Type} (srcPoint : BackingStore σ) (folderLevels : List GoString)
    (acc : σ × List Call) (key : Nat) :
    ∃ extra, (mkdirStep srcPoint folderLevels acc key).2 = acc.2 ++ extra := by
  unfold mkdirStep
  by_cases hk : key = folderLevels.length - 1
  · simp only [hk, if_true]
    exact ⟨[], by simp⟩
  · simp only [hk, if_false]
    by_cases hs : (!(srcPoint.GetAttr acc.1
        (stringsJoin (folderLevels.take (key + 1)))).2.Ok) = true
    · simp only [hs, if_true]
      exact ⟨_, rfl⟩
    · simp only [hs, if_false]
      exact ⟨_, rfl⟩

theorem mkdirSteps_calls {σ : Type} (srcPoint : BackingStore σ) (folderLevels : List GoString)
    (keys : List Nat) :
    ∀ acc : σ × List Call,
      ∃ extra, (keys.foldl (mkdirStep srcPoint folderLevels) acc).2 = acc.2 ++ extra := by
  induction keys with
  | nil => intro acc; exact ⟨[], by simp⟩
  | cons k ks ih =>
    intro acc
    obtain ⟨e1, h1⟩ := mkdirStep_calls srcPoint folderLevels acc k
    obtain ⟨e2, h2⟩ := ih (mkdirStep srcPoint folderLevels acc k)
    exact ⟨e1 ++ e2, by rw [List.foldl_cons, h2, h1, List.append_assoc]⟩

/-- A materialisation that returns reports the status of opening the original
and has called `ScaleImage` with the decoded `width` as columns and the decoded
`height` as rows. -/
theorem materialise_ok {σ : Type} (srcPoint : BackingStore σ) (GetImageBlob : Wand → List Nat)
    (st : σ) (name : GoString) (d : Decoded) (originalFileName : GoString)
    (originalFile : Option File) (originalStatus : Status) (calls : List Call) (r : Opened σ)
    (h : materialise srcPoint GetImageBlob st name d originalFileName originalFile
      originalStatus calls = .ok r) :
    r.code = originalStatus ∧ Call.ScaleImage (toUint d.width) (toUint d.height) ∈ r.calls := by
  unfold materialise at h
  split at h
  · exact Except.noConfusion h
  · split at h
    · exact Except.noConfusion h
    · split at h
      · exact Except.noConfusion h
      · simp only at h
        split at h
        · exact Except.noConfusion h
        · injection h with h
          subst h
          refine ⟨rfl, ?_⟩
          simp only
          obtain ⟨extra, he⟩ := mkdirSteps_calls srcPoint (stringsSplit name)
            (List.range (stringsSplit name).length)
            (st, calls ++ [Call.GetAttr originalFileName, Call.Read _ _ 0,
              Call.ReadImageBlob _, Call.SetImageFormat "JPG".toList,
              Call.ScaleImage (toUint d.width) (toUint d.height), Call.SetCompressionQuality 5])
          rw [he]
          simp

/-- Whenever `Open` takes the materialisation branch and returns, its status is
`OK`, the status of opening the original, and `ScaleImage` was called with the
decoded `width` as columns and the decoded `height` as rows. -/
theorem Open_materialise {σ : Type} (srcPoint : BackingStore σ) (GetImageBlob : Wand → List Nat)
    (st : σ) (name : GoString) (flags : Nat) (d : Decoded) (r : Opened σ)
    (hflags : flags &&& fuse.O_ANYWRITE = 0)
    (hdirect : (srcPoint.Open st name flags).2.Ok = false)
    (hthumb : isThumbnail name = true)
    (hd : DecodeThumbnailName name = .ok d)
    (horig : (srcPoint.Open st (Encode d.fileName) flags).2.Ok = true)
    (h : Open srcPoint GetImageBlob st name flags = .ok r) :
    r.code = fuse.OK ∧ Call.ScaleImage (toUint d.width) (toUint d.height) ∈ r.calls := by
  have hw : ¬ (flags &&& fuse.O_ANYWRITE ≠ 0) := by simp [hflags]
  simp only [Open, hw, if_false, hdirect, hthumb, hd, horig, if_true, Bool.false_eq_true] at h
  obtain ⟨h1, h2⟩ := materialise_ok _ _ _ _ _ _ _ _ _ _ h
  refine ⟨?_, h2⟩
  rw [h1]
  simpa [Status.Ok] using horig

/-- The materialising `Open` of a well-formed thumbnail path
`xx/xx/xx/<name>_<first>x<second>[@2x].<ext>`: whenever it returns, the status
is `OK` and `ScaleImage` was called with the number after the `x` as columns and
the number before the `x` as rows. -/
theorem Open_path_scale {σ : Type} (srcPoint : BackingStore σ) (GetImageBlob : Wand → List Nat)
    (st : σ) (p : ThumbnailParts) (flags : Nat) (r : Opened σ)
    (hp : p.WellFormed isWord)
    (hflags : flags &&& fuse.O_ANYWRITE = 0)
    (hdirect : (srcPoint.Open st p.path flags).2.Ok = false)
    (horig : (srcPoint.Open st (Encode (p.name ++ '.' :: p.ext)) flags).2.Ok = true)
    (h : Open srcPoint GetImageBlob st p.path flags = .ok r) :
    r.code = fuse.OK ∧
      Call.ScaleImage (toUint (Atoi p.second).1) (toUint (Atoi p.first).1) ∈ r.calls := by
  have hd := decode_path p hp
  have hthumb : isThumbnail p.path = true := by
    unfold isThumbnail Regex.MatchString
    rw [firstSubmatch_of_matchAt _ _ _ (matchAt_path p hp)]
    rfl
  exact Open_materialise srcPoint GetImageBlob st p.path flags _ r hflags hdirect hthumb hd
    horig h

/-! ## Panics -/

/-- Source `GetAttr` never panics. -/
theorem GetAttr_returns {σ : Type} (srcPoint : BackingStore σ) (st : σ) (name : GoString) :
    ∃ r, GetAttr srcPoint st name = .ok r := by
  have hshard : ∃ r, shardDirAttr name = .ok r := by
    by_cases h : IsShardDir name
    · exact ⟨_, (shardDirAttr_eq name).1 h⟩
    · exact ⟨_, (shardDirAttr_eq name).2 h⟩
  obtain ⟨rs, hrs⟩ := hshard
  by_cases hname : name = []
  · exact ⟨(some dirAttr, fuse.OK), by simp [GetAttr, hname]⟩
  · by_cases hok : (srcPoint.GetAttr st name).2.Ok = true
    · exact ⟨srcPoint.GetAttr st name, by simp [GetAttr, hname, hok]⟩
    · by_cases hth : isThumbnail name = true
      · obtain ⟨d, hd⟩ := decode_ok_of_isThumbnail hth
        by_cases ho : (srcPoint.GetAttr st (Encode d.fileName)).2.Ok = true
        · exact ⟨srcPoint.GetAttr st (Encode d.fileName),
            by simp [GetAttr, hname, hok, hth, hd, ho]⟩
        · exact ⟨rs, by simp [GetAttr, hname, hok, hth, hd, ho, hrs]⟩
      · exact ⟨rs, by simp [GetAttr, hname, hok, hth, hrs]⟩

theorem materialise_no_index_panic {σ : Type} (srcPoint : BackingStore σ)
    (GetImageBlob : Wand → List Nat) (st : σ) (name : GoString) (d : Decoded)
    (originalFileName : GoString) (originalFile : Option File) (originalStatus : Status)
    (calls : List Call) :
    materialise srcPoint GetImageBlob st name d originalFileName originalFile originalStatus
      calls ≠ .error .indexOutOfRange := by
  unfold materialise
  split
  · simp
  · split
    · simp
    · split
      · simp
      · simp only
        split <;> simp

/-- Source `Open` never panics on a missing regular-expression match. -/
theorem Open_no_index_panic {σ : Type} (srcPoint : BackingStore σ)
    (GetImageBlob : Wand → List Nat) (st : σ) (name : GoString) (flags : Nat) :
    Open srcPoint GetImageBlob st name flags ≠ .error .indexOutOfRange := by
  by_cases hw : flags &&& fuse.O_ANYWRITE = 0
  · by_cases hok : (srcPoint.Open st name flags).2.Ok = true
    · simp [Open, hw, hok]
    · by_cases hth : isThumbnail name = true
      · obtain ⟨d, hd⟩ := decode_ok_of_isThumbnail hth
        by_cases ho : (srcPoint.Open st (Encode d.fileName) flags).2.Ok = true
        · simp only [Open, hw, hok, hth, hd, ho, if_true, if_false, ne_eq, not_true_eq_false,
            Bool.false_eq_true]
          exact materialise_no_index_panic _ _ _ _ _ _ _ _ _
        · simp [Open, hw, hok, hth, hd, ho]
      · simp [Open, hw, hok, hth]
  · simp [Open, hw]

/-! ## Shard names -/

set_option maxRecDepth 100000 in
theorem subfolderNames_eq_map :
    GetGeneratedSubfolderNames = (List.range 256).map shardName := by
  decide

theorem digitChar_mem_hexDigits : ∀ i < 16, Nat.digitChar i ∈ hexDigits := by
  decide

theorem digitChar_injOn : ∀ i < 16, ∀ j < 16, Nat.digitChar i = Nat.digitChar j → i = j := by
  decide

theorem hexDigits_eq_digitChar : ∀ x ∈ hexDigits, ∃ i, i < 16 ∧ x = Nat.digitChar i := by
  decide

theorem shardName_injOn {m n : Nat} (hm : m < 256) (hn : n < 256)
    (h : shardName m = shardName n) : m = n := by
  unfold shardName at h
  injection h with h1 h2
  injection h2 with h2 _
  have e1 := digitChar_injOn (m / 16) (by omega) (n / 16) (by omega) h1
  have e2 := digitChar_injOn (m % 16) (Nat.mod_lt _ (by decide)) (n % 16)
    (Nat.mod_lt _ (by decide)) h2
  omega

/-- Every two-digit lowercase hex string is one of the generated names. -/
theorem hex_pair_mem_subfolderNames {x y : Char} (hx : x ∈ hexDigits) (hy : y ∈ hexDigits) :
    [x, y] ∈ GetGeneratedSubfolderNames := by
  rw [subfolderNames_eq_map]
  obtain ⟨i, hi, rfl⟩ := hexDigits_eq_digitChar x hx
  obtain ⟨j, hj, rfl⟩ := hexDigits_eq_digitChar y hy
  refine List.mem_map.mpr ⟨16 * i + j, List.mem_range.mpr (by omega), ?_⟩
  have h1 : (16 * i + j) / 16 = i := by omega
  have h2 : (16 * i + j) % 16 = j := by omega
  simp only [shardName, h1, h2]

/-- C7: `GetGeneratedSubfolderNames` is a fixed sequence of exactly 256 pairwise
distinct strings, each of exactly two characters drawn from `0-9a-f`; every
two-digit lowercase hex string `00` .. `ff` occurs in it; and the entry at index
`16 * i + a` is the hex digit of `i` followed by the hex digit of `a`. -/
theorem shard_names_enumeration :
    GetGeneratedSubfolderNames.length = 256 ∧
    GetGeneratedSubfolderNames.Nodup ∧
    (∀ s ∈ GetGeneratedSubfolderNames, s.length = 2 ∧ ∀ c ∈ s, c ∈ hexDigits) ∧
    (∀ x ∈ hexDigits, ∀ y ∈ hexDigits, [x, y] ∈ GetGeneratedSubfolderNames) ∧
    (∀ i < 16, ∀ a < 16,
      GetGeneratedSubfolderNames[16 * i + a]? = some [Nat.digitChar i, Nat.digitChar a]) := by
  rw [subfolderNames_eq_map]
  refine ⟨by simp, ?_, ?_, ?_, ?_⟩
  · refine List.Nodup.map_on ?_ (List.nodup_range 256)
    intro m hm n hn h
    exact shardName_injOn (List.mem_range.mp hm) (List.mem_range.mp hn) h
  · intro s hs
    obtain ⟨n, hn, rfl⟩ := List.mem_map.mp hs
    have hn' : n < 256 := List.mem_range.mp hn
    refine ⟨rfl, ?_⟩
    intro c hc
    simp only [shardName, List.mem_cons, List.mem_singleton, List.not_mem_nil, or_false] at hc
    rcases hc with rfl | rfl
    · exact digitChar_mem_hexDigits _ (by omega)
    · exact digitChar_mem_hexDigits _ (Nat.mod_lt _ (by decide))
  · intro x hx y hy
    rw [← subfolderNames_eq_map]
    exact hex_pair_mem_subfolderNames hx hy
  · intro i hi a ha
    have hlt : 16 * i + a < 256 := by omega
    have h1 : (16 * i + a) / 16 = i := by omega
    have h2 : (16 * i + a) % 16 = a := by omega
    rw [List.getElem?_map, List.getElem?_range hlt]
    simp only [Option.map_some', shardName, h1, h2]

/-! ## Directory listing -/

/-- C9: listing the mount root (the empty path) always succeeds; its result holds
a directory entry for each of the 256 shard names `00` .. `ff`; it is the shard
entries followed by the store's own root listing when that listing succeeds, and
the shard entries alone when it fails. -/
theorem OpenDir_root {σ : Type} (srcPoint : BackingStore σ) (st : σ) :
    (OpenDir srcPoint st []).2 = fuse.OK ∧
    (∀ x ∈ hexDigits, ∀ y ∈ hexDigits,
      ({ Name := [x, y], Mode := fuse.S_IFDIR } : fuse.DirEntry) ∈ (OpenDir srcPoint st []).1) ∧
    (∀ n ∈ GetGeneratedSubfolderNames,
      ({ Name := n, Mode := fuse.S_IFDIR } : fuse.DirEntry) ∈ (OpenDir srcPoint st []).1) ∧
    ((srcPoint.OpenDir st []).2.Ok = true →
      (OpenDir srcPoint st []).1 = shardEntries ++ (srcPoint.OpenDir st []).1 ∧
      ∀ e ∈ (srcPoint.OpenDir st []).1, e ∈ (OpenDir srcPoint st []).1) ∧
    ((srcPoint.OpenDir st []).2.Ok = false → (OpenDir srcPoint st []).1 = shardEntries) ∧
    shardEntries.length = 256 := by
  have hlen : (stringsSplit []).length < 3 := by decide
  have hnames : ∀ n ∈ GetGeneratedSubfolderNames,
      ({ Name := n, Mode := fuse.S_IFDIR } : fuse.DirEntry) ∈ (OpenDir srcPoint st []).1 := by
    intro n hn
    have hmem : ({ Name := n, Mode := fuse.S_IFDIR } : fuse.DirEntry) ∈ shardEntries :=
      List.mem_map.mpr ⟨n, hn, rfl⟩
    by_cases hok : (srcPoint.OpenDir st []).2.Ok = true
    · simp only [OpenDir, hlen, hok, if_true]
      exact List.mem_append_left _ hmem
    · simp only [OpenDir, hlen, hok, if_true]
      exact hmem
  refine ⟨rfl, ?_, hnames, ?_, ?_, by simp [shardEntries, subfolderNames_eq_map]⟩
  · intro x hx y hy
    exact hnames [x, y] (hex_pair_mem_subfolderNames hx hy)
  · intro hok
    have heq : (OpenDir srcPoint st []).1 = shardEntries ++ (srcPoint.OpenDir st []).1 := by
      simp only [OpenDir, hlen, hok, if_true, shardEntries]
    exact ⟨heq, fun e he => heq ▸ List.mem_append_right _ he⟩
  · intro hok
    simp [OpenDir, hlen, hok, shardEntries]

/-! ## C2: where `DecodeThumbnailName` is defined -/

set_option maxRecDepth 100000 in
/-- C2, counterexample: on the paths `foo/bar`, the empty path and
`00/00/00/name.jpg`, which the regular expression rejects, `DecodeThumbnailName`
returns no result: indexing `regexResult[0]` panics. -/
theorem decode_no_match_panics :
    isThumbnail "foo/bar".toList = false ∧
    DecodeThumbnailName "foo/bar".toList = .error .indexOutOfRange ∧
    DecodeThumbnailName "".toList = .error .indexOutOfRange ∧
    DecodeThumbnailName "00/00/00/name.jpg".toList = .error .indexOutOfRange := by
  refine ⟨by decide, by rfl, by rfl, by rfl⟩

/-- C2, amended: `DecodeThumbnailName` has no no-match result: it returns a
result exactly on the paths that `isThumbnail` accepts, and on every other path
it panics with an index out of range.  `GetAttr` and `Open`, which call it only
after `isThumbnail`, never run into that panic. -/
theorem decode_defined_iff_isThumbnail (path : GoString) :
    ((∃ d, DecodeThumbnailName path = .ok d) ↔ isThumbnail path = true) ∧
    (DecodeThumbnailName path = .error .indexOutOfRange ↔ isThumbnail path = false) ∧
    (∀ (σ : Type) (srcPoint : BackingStore σ) (st : σ),
      ∃ r, GetAttr srcPoint st path = .ok r) ∧
    (∀ (σ : Type) (srcPoint : BackingStore σ) (GetImageBlob : Wand → List Nat) (st : σ)
        (flags : Nat),
      Open srcPoint GetImageBlob st path flags ≠ .error .indexOutOfRange) := by
  refine ⟨?_, ?_, fun σ srcPoint st => GetAttr_returns srcPoint st path,
    fun σ srcPoint GetImageBlob st flags => Open_no_index_panic srcPoint GetImageBlob st path flags⟩
  · cases h : isThumbnail path with
    | true =>
      obtain ⟨d, hd⟩ := decode_ok_of_isThumbnail h
      simp [hd]
    | false =>
      have := decode_panics_of_not_isThumbnail h
      simp [this]
  · cases h : isThumbnail path with
    | true =>
      obtain ⟨d, hd⟩ := decode_ok_of_isThumbnail h
      simp [hd]
    | false =>
      have := decode_panics_of_not_isThumbnail h
      simp [this]

/-! ## C5: attribute resolution -/

/-- C5: for a non-root path, `GetAttr` returns (1) the store's own answer when the
store resolves the path; otherwise (2) the store's answer for the original at
`Encode` of the decoded name when the path is a thumbnail request whose original
resolves; otherwise (3) a directory attribute with `OK` when the path has fewer
than 4 segments and its last segment is a shard name; otherwise (4) `ENOENT`. -/
theorem GetAttr_priority {σ : Type} (srcPoint : BackingStore σ) (st : σ) (name : GoString)
    (hname : name ≠ []) :
    ((srcPoint.GetAttr st name).2.Ok = true →
      GetAttr srcPoint st name = .ok (srcPoint.GetAttr st name)) ∧
    ((srcPoint.GetAttr st name).2.Ok = false →
      (OriginalResolves srcPoint st name →
        ∃ d, DecodeThumbnailName name = .ok d ∧
          GetAttr srcPoint st name = .ok (srcPoint.GetAttr st (Encode d.fileName))) ∧
      (¬ OriginalResolves srcPoint st name → IsShardDir name →
        GetAttr srcPoint st name = .ok (some dirAttr, fuse.OK)) ∧
      (¬ OriginalResolves srcPoint st name → ¬ IsShardDir name →
        GetAttr srcPoint st name = .ok (none, fuse.ENOENT))) := by
  refine ⟨?_, ?_⟩
  · intro hok
    simp [GetAttr, hname, hok]
  · intro hok
    have key : ¬ OriginalResolves srcPoint st name →
        GetAttr srcPoint st name = shardDirAttr name := by
      intro hnr
      by_cases hth : isThumbnail name = true
      · obtain ⟨d, hd⟩ := decode_ok_of_isThumbnail hth
        have hno : (srcPoint.GetAttr st (Encode d.fileName)).2.Ok = false := by
          cases h : (srcPoint.GetAttr st (Encode d.fileName)).2.Ok with
          | false => rfl
          | true => exact absurd ⟨hth, d, hd, h⟩ hnr
        simp [GetAttr, hname, hok, hth, hd, hno]
      · simp [GetAttr, hname, hok, hth]
    refine ⟨?_, ?_, ?_⟩
    · rintro ⟨hth, d, hd, hdo⟩
      exact ⟨d, hd, by simp [GetAttr, hname, hok, hth, hd, hdo]⟩
    · intro hnr hsd
      rw [key hnr]; exact (shardDirAttr_eq name).1 hsd
    · intro hnr hsd
      rw [key hnr]; exact (shardDirAttr_eq name).2 hsd

set_option maxRecDepth 100000 in
/-- C5, witness: on the disk that holds only the original `cat.jpg`, the
attributes of the thumbnail path `88/c3/04/cat_100x50.jpg` are those of the
original. -/
theorem GetAttr_priority_witness :
    catThumbnail ≠ [] ∧
    ((memStore .healthy).GetAttr catDisk catThumbnail).2.Ok = false ∧
    GetAttr (memStore .healthy) catDisk catThumbnail =
      .ok (some { Size := 4, Mode := 0o100644 }, fuse.OK) := by
  have hne : catThumbnail ≠ [] := by decide
  have hfail : ((memStore .healthy).GetAttr catDisk catThumbnail).2.Ok = false := by decide
  have hres : OriginalResolves (memStore .healthy) catDisk catThumbnail :=
    ⟨by decide, _, rfl, by decide⟩
  obtain ⟨d, hd, hg⟩ :=
    ((GetAttr_priority (memStore .healthy) catDisk catThumbnail hne).2 hfail).1 hres
  have hd' : DecodeThumbnailName catThumbnail =
      .ok { fileName := "cat.jpg".toList, height := 100, width := 50, retina := false } := rfl
  rw [hd'] at hd
  injection hd with hd
  subst hd
  exact ⟨hne, hfail, hg⟩

/-! ## C6: opening without materialising -/

/-- C6: `Open` answers `EPERM` on any path when the flags carry write intent,
without consulting the store; otherwise it returns the handle and status of the
store's own open when that succeeds; otherwise `ENOENT` when the path is not a
thumbnail request, or is one whose original at `Encode` of the decoded name
cannot be opened.  In all these cases the store is left as it was and no call
creates, writes, flushes or makes a directory. -/
theorem Open_without_materialising {σ : Type} (srcPoint : BackingStore σ)
    (GetImageBlob : Wand → List Nat) (st : σ) (name : GoString) (flags : Nat) :
    (flags &&& fuse.O_ANYWRITE ≠ 0 →
      ∃ r, Open srcPoint GetImageBlob st name flags = .ok r ∧
        r.file = none ∧ r.code = fuse.EPERM ∧ r.calls = [] ∧ r.Untouched st) ∧
    (flags &&& fuse.O_ANYWRITE = 0 →
      ((srcPoint.Open st name flags).2.Ok = true →
        ∃ r, Open srcPoint GetImageBlob st name flags = .ok r ∧
          r.file = (srcPoint.Open st name flags).1 ∧
          r.code = (srcPoint.Open st name flags).2 ∧
          r.calls = [Call.Open name flags] ∧ r.Untouched st) ∧
      ((srcPoint.Open st name flags).2.Ok = false →
        (isThumbnail name = false →
          ∃ r, Open srcPoint GetImageBlob st name flags = .ok r ∧
            r.file = none ∧ r.code = fuse.ENOENT ∧ r.Untouched st) ∧
        (isThumbnail name = true →
          ∃ d, DecodeThumbnailName name = .ok d ∧
            ((srcPoint.Open st (Encode d.fileName) flags).2.Ok = false →
              ∃ r, Open srcPoint GetImageBlob st name flags = .ok r ∧
                r.file = none ∧ r.code = fuse.ENOENT ∧ r.Untouched st)))) := by
  refine ⟨?_, ?_⟩
  · intro hw
    refine ⟨{ file := none, code := fuse.EPERM, store := st, calls := [] }, ?_,
      rfl, rfl, rfl, rfl, ?_⟩
    · simp only [Open, hw, ne_eq, not_false_eq_true, if_true]
    · intro c hc; simp at hc
  · intro hw
    have hw' : ¬ (flags &&& fuse.O_ANYWRITE ≠ 0) := by simp [hw]
    refine ⟨?_, ?_⟩
    · intro hok
      refine ⟨{ file := (srcPoint.Open st name flags).1, code := (srcPoint.Open st name flags).2,
                store := st, calls := [Call.Open name flags] }, ?_, rfl, rfl, rfl, rfl, ?_⟩
      · simp only [Open, hw', if_false, hok, if_true]
      · intro c hc
        simp only [List.mem_singleton] at hc
        subst hc; rfl
    · intro hok
      refine ⟨?_, ?_⟩
      · intro hth
        refine ⟨{ file := none, code := fuse.ENOENT, store := st,
                  calls := [Call.Open name flags] }, ?_, rfl, rfl, rfl, ?_⟩
        · simp only [Open, hw', if_false, hok, hth, Bool.false_eq_true]
        · intro c hc
          simp only [List.mem_singleton] at hc
          subst hc; rfl
      · intro hth
        obtain ⟨d, hd⟩ := decode_ok_of_isThumbnail hth
        refine ⟨d, hd, ?_⟩
        intro horig
        refine ⟨{ file := none, code := fuse.ENOENT, store := st,
                  calls := [Call.Open name flags, Call.Open (Encode d.fileName) flags] },
          ?_, rfl, rfl, rfl, ?_⟩
        · simp only [Open, hw', if_false, hok, hth, hd, horig, if_true, Bool.false_eq_true]
        · intro c hc
          simp only [List.mem_cons, List.mem_singleton, List.not_mem_nil, or_false] at hc
          rcases hc with rfl | rfl <;> rfl

/-! ## C1 and C3: the two numbers of a thumbnail path -/

set_option maxRecDepth 100000 in
/-- C1: on the path `88/c3/04/cat_100x50.jpg`, built from the shards of
`Encode("cat.jpg")` with W = 100 and H = 50, `DecodeThumbnailName` returns the
file name `cat.jpg` and `retina = false`, but `height = 100` and `width = 50`:
the number before the `x` goes to `height`, the number after it to `width`. -/
theorem decode_cat_thumbnail :
    catThumbnail = "88/c3/04/cat_100x50.jpg".toList ∧
    DecodeThumbnailName catThumbnail =
      .ok { fileName := "cat.jpg".toList, height := 100, width := 50, retina := false } := by
  exact ⟨rfl, rfl⟩

set_option maxRecDepth 100000 in
/-- C3: materialising `88/c3/04/cat_100x50.jpg` on the disk that holds the
original `cat.jpg` calls `ScaleImage` with 50 columns and 100 rows; the whole
sequence of collaborator calls is listed. -/
theorem Open_scales_to_swapped_dimensions (GetImageBlob : Wand → List Nat) :
    (Open (memStore .healthy) GetImageBlob catDisk catThumbnail 0).map (fun r => r.calls) =
      .ok [Call.Open "88/c3/04/cat_100x50.jpg".toList 0,
           Call.Open "88/c3/04/cat.jpg".toList 0,
           Call.GetAttr "88/c3/04/cat.jpg".toList,
           Call.Read 0 4 0,
           Call.ReadImageBlob [255, 216, 255, 224],
           Call.SetImageFormat "JPG".toList,
           Call.ScaleImage 50 100,
           Call.SetCompressionQuality 5,
           Call.GetAttr "88".toList,
           Call.GetAttr "88/c3".toList,
           Call.GetAttr "88/c3/04".toList,
           Call.Create "88/c3/04/cat_100x50.jpg".toList 66 420,
           Call.GetImageBlob,
           Call.Write 1 (GetImageBlob
             { blob := [255, 216, 255, 224], format := "JPG".toList, columns := 50, rows := 100,
               quality := 5 }) 0,
           Call.Flush 1] := by
  rfl

/-! ## C4: the status of a materialisation -/

set_option maxRecDepth 100000 in
/-- C4: when the disk is full, so that the store's `Write` fails with `ENOSPC`
and the created thumbnail stays empty, the materialising `Open` still returns
`OK`; when the store is read-only, so that `Create` fails and returns no file,
`Open` panics on the nil file instead of returning a status. -/
theorem Open_ok_when_write_fails (GetImageBlob : Wand → List Nat) :
    (Open (memStore .diskFull) GetImageBlob catDisk catThumbnail 0).map
        (fun r => (r.file, r.code, r.store)) =
      .ok (some 1, fuse.OK,
        { dirs := catDisk.dirs, files := catDisk.files ++ [("88/c3/04/cat_100x50.jpg".toList, [])] }) ∧
    (∀ d f data off, ((memStore .diskFull).Write d f data off).2 = (0, ENOSPC)) ∧
    Open (memStore .readOnly) GetImageBlob catDisk catThumbnail 0 = .error .nilDereference := by
  refine ⟨rfl, fun _ _ _ _ => rfl, rfl⟩

/-! ## C8: what `isThumbnail` accepts -/

/-- The regular expression accepts a path exactly when the path contains a piece
of the wire form with shard labels over `\w`. -/
theorem isThumbnail_iff_contains (path : GoString) :
    isThumbnail path = true ↔
      ∃ pre m post, path = pre ++ m ++ post ∧ IsWireForm isWord m := by
  unfold isThumbnail Regex.MatchString
  rw [Regex.firstSubmatch_isSome]
  simp only [thumbnailRegex_matches_iff]

set_option maxRecDepth 100000 in
/-- C8, counterexample: `isThumbnail` accepts `zz/zz/zz/a_1x2.jpg`, whose shard
labels are not hexadecimal, and `/00/00/00/a_1x2.jpg`, which has the wire form
only after its first character; neither path as a whole has the wire form with
lowercase-hex shard labels. -/
theorem isThumbnail_accepts_non_wire_form :
    (isThumbnail "zz/zz/zz/a_1x2.jpg".toList = true ∧
      ¬ IsWireForm isLowerHex "zz/zz/zz/a_1x2.jpg".toList) ∧
    (isThumbnail "/00/00/00/a_1x2.jpg".toList = true ∧
      ¬ IsWireForm isLowerHex "/00/00/00/a_1x2.jpg".toList) := by
  refine ⟨⟨by decide, ?_⟩, ⟨by decide, ?_⟩⟩
  · rintro ⟨p, ⟨⟨h1, h1'⟩, _⟩, hp⟩
    obtain ⟨a, b, hab⟩ := List.length_eq_two.mp h1
    have ha : isLowerHex a = true := h1' a (by rw [hab]; simp)
    rw [ThumbnailParts.path, hab] at hp
    have : a = 'z' := by injection hp
    subst this
    exact absurd ha (by decide)
  · rintro ⟨p, ⟨⟨h1, h1'⟩, _⟩, hp⟩
    obtain ⟨a, b, hab⟩ := List.length_eq_two.mp h1
    have ha : isLowerHex a = true := h1' a (by rw [hab]; simp)
    rw [ThumbnailParts.path, hab] at hp
    have : a = '/' := by injection hp
    subst this
    exact absurd ha (by decide)

set_option maxRecDepth 100000 in
/-- C8, amended: `isThumbnail(path)` is true if and only if `path` contains,
anywhere, a piece of the form `cc/cc/cc/<name>_<digits>x<digits>[@2x].<ext>` in
which every `c` is a word character, `<name>` is non-empty over `[\w-]` and
`<ext>` non-empty over `\w`; it is false for `foo/bar`, the empty path and
`00/00/00/name.jpg`. -/
theorem isThumbnail_iff_contains_wire_form (path : GoString) :
    (isThumbnail path = true ↔
      ∃ pre m post, path = pre ++ m ++ post ∧ IsWireForm isWord m) ∧
    isThumbnail "foo/bar".toList = false ∧
    isThumbnail "".toList = false ∧
    isThumbnail "00/00/00/name.jpg".toList = false :=
  ⟨isThumbnail_iff_contains path, by decide, by decide, by decide⟩

end MediaFuse
